import Mathlib

set_option maxHeartbeats 1000000

/-!
Shallow embedding of the exam-scheduling graph-coloring engine of this
repository (file `src/utils/graphColoring.ts`): the conflict-graph builder
`buildConflictGraph`, the Welsh–Powell greedy colorer `greedyColoring`, the
DSATUR colorer `dsaturColoring`, and the solution verifier `verifySolution`.

Modelling conventions:
* A JavaScript `Map` is modelled as an insertion-ordered list of its values;
  keys are the `name` fields.  A JavaScript `Set` of strings is modelled as an
  insertion-ordered duplicate-free list (`dedupInsert` mirrors `Set.add`,
  which appends a new element and is a no-op on a present element).
* `localeCompare` on course names is modelled by the code-unit order `≤` on
  `String` (the names occurring in the repository are plain ASCII, where the
  two orders agree on everything the algorithms observe; the array `sort()`
  used for canonical conflict pairs is code-unit order exactly).
* The source sorts arrays with a comparator that is a total order whenever
  course names are distinct (which holds for the values of a `Map` keyed by
  name); a stable insertion sort parametrised by the "comes before or equal"
  Boolean relation reproduces it.
* `slot`/`color` fields written by the colorers are recovered from the final
  slot assignment; numbers are `Nat`, the displayed average is an exact
  rational with JavaScript `Math.round` modelled as `⌊q + 1/2⌋`.
* In `dsaturColoring` the source updates `saturation.get(nb)` for every
  neighbour name `nb`; when a conflict set mentions a name absent from the
  map the source throws a `TypeError` there.  The embedding skips the update
  for absent names, so it agrees with the source on every run of the source
  that returns normally (in particular on all graphs whose conflict sets only
  mention mapped courses, as produced by `buildConflictGraph`).
-/

structure Student where
  id : String
  courses : List String
deriving Repr, DecidableEq

structure Course where
  name : String
  conflicts : List String
  slot : Option Nat := none
  color : Option String := none
deriving Repr, DecidableEq

abbrev CourseGraph := List Course

/-- JavaScript `String.prototype.trim`, written over the character list so
that it evaluates inside the kernel (`String.trim` of the core library is
defined by well-founded recursion and does not reduce definitionally). -/
def jsTrim (s : String) : String :=
  ⟨((s.data.dropWhile Char.isWhitespace).reverse.dropWhile
      Char.isWhitespace).reverse⟩

/-- Code-point lexicographic order on character lists. -/
def charListLe : List Char → List Char → Bool
  | [], _ => true
  | _ :: _, [] => false
  | a :: as, b :: bs =>
    if a < b then true else if b < a then false else charListLe as bs

/-- The string order used by the source (JavaScript code-unit comparison for
`Array.sort()`, `localeCompare` for name tie-breaks — the two agree on the
ASCII names this repository handles), written over the character lists so
that it evaluates inside the kernel (`String.ltb` of the core library does
not reduce definitionally). -/
def strLe (a b : String) : Bool := charListLe a.data b.data

/-- JavaScript `Set.add`: append if not already present. -/
def dedupInsert [DecidableEq α] (s : List α) (x : α) : List α :=
  if x ∈ s then s else s ++ [x]

/-- The names of the courses of a graph, in map insertion order. -/
def graphNames (g : CourseGraph) : List String := g.map (fun c => c.name)

/-- Source `courses.get(n)?.conflicts ?? []`: the conflict set of the (first) course
named `n`, empty when `n` is not in the map. -/
def conflictsOf (g : CourseGraph) (n : String) : List String :=
  match g.find? (fun c => c.name == n) with
  | some c => c.conflicts
  | none => []

/-- The symmetry invariant of the specification: for all courses `a`, `b` in
the graph, `b ∈ a.conflicts ↔ a ∈ b.conflicts`. -/
def GraphSymm (g : CourseGraph) : Prop :=
  ∀ a ∈ graphNames g, ∀ b ∈ graphNames g,
    (b ∈ conflictsOf g a ↔ a ∈ conflictsOf g b)

instance : DecidablePred GraphSymm := fun g =>
  inferInstanceAs (Decidable (∀ a ∈ graphNames g, ∀ b ∈ graphNames g, _ ↔ _))

/-- The no-self-conflict invariant of the specification. -/
def NoSelfConflict (g : CourseGraph) : Prop :=
  ∀ a ∈ graphNames g, a ∉ conflictsOf g a

instance : DecidablePred NoSelfConflict := fun g =>
  inferInstanceAs (Decidable (∀ a ∈ graphNames g, _ ∉ _))

/-! ## Conflict Graph Builder (`buildConflictGraph`, lines 87–156) -/

/-- Source `courses.set(n, ...)` with a fresh empty conflict set: overwrite in place if
the key exists (keeping its position), otherwise append. -/
def insertCourse (g : CourseGraph) (n : String) : CourseGraph :=
  if g.any (fun c => c.name == n) then
    g.map (fun c => if c.name == n then { name := n, conflicts := [] } else c)
  else g ++ [{ name := n, conflicts := [] }]

/-- The initial map: one entry per trimmed non-empty name of the course
universe, each with an empty conflict set. -/
def initGraph (courseNames : List String) : CourseGraph :=
  courseNames.foldl
    (fun g n => if jsTrim n ≠ "" then insertCourse g (jsTrim n) else g) []

/-- The `validCourses` set of trimmed non-empty universe names. -/
def validCoursesOf (courseNames : List String) : List String :=
  courseNames.foldl
    (fun s n => if jsTrim n ≠ "" then dedupInsert s (jsTrim n) else s) []

/-- A student's course mentions, trimmed to non-empty and restricted to the
course universe (`studentValidCourses` in the source). -/
def filteredCourses (valid : List String) (cs : List String) : List String :=
  ((cs.filter (fun c => jsTrim c ≠ "")).map jsTrim).filter
    (fun c => c ∈ valid)

/-- Source `courses.get(a)!.conflicts.add(b)`: add `b` to the conflict set of the
course(s) named `a`. -/
def addConflict (g : CourseGraph) (a b : String) : CourseGraph :=
  g.map (fun c =>
    if c.name == a then { c with conflicts := dedupInsert c.conflicts b }
    else c)

/-- Both `conflicts.add` calls of one loop iteration of the source. -/
def addBoth (g : CourseGraph) (p : String × String) : CourseGraph :=
  addConflict (addConflict g p.1 p.2) p.2 p.1

/-- All index pairs `i < j` of a list, in the double-loop order of the
source. -/
def allPairs : List α → List (α × α)
  | [] => []
  | x :: xs => (xs.map (fun y => (x, y))) ++ allPairs xs

/-- One student's contribution to the conflict graph. -/
def addStudentConflicts (valid : List String) (g : CourseGraph)
    (st : Student) : CourseGraph :=
  let f := filteredCourses valid st.courses
  if 1 < f.length then (allPairs f).foldl addBoth g else g

/-- Source `buildConflictGraph(students, courseNames)`. -/
def buildConflictGraph (students : List Student)
    (courseNames : List String) : CourseGraph :=
  students.foldl (addStudentConflicts (validCoursesOf courseNames))
    (initGraph courseNames)

/-! ## Shared colorer pieces -/

def SLOT_COLORS : List String :=
  ["#3B82F6", "#10B981", "#F59E0B", "#EF4444", "#8B5CF6",
   "#06B6D4", "#F97316", "#84CC16", "#EC4899", "#6366F1",
   "#F59E0B", "#10B981", "#8B5CF6", "#06B6D4", "#F97316"]

/-- Source `SLOT_COLORS[(slot - 1) % SLOT_COLORS.length]`. -/
def colorForSlot (s : Nat) : String :=
  SLOT_COLORS.getD ((s - 1) % SLOT_COLORS.length) ""

/-- Source `course.slot = undefined; course.color = undefined`. -/
def resetCourse (c : Course) : Course := { c with slot := none, color := none }

/-- Stable insertion sort by a Boolean "comes before or equal" relation. -/
def insertLe (le : α → α → Bool) (a : α) : List α → List α
  | [] => [a]
  | b :: bs => if le a b then a :: b :: bs else b :: insertLe le a bs

def sortByLe (le : α → α → Bool) (l : List α) : List α :=
  l.foldr (insertLe le) []

/-- The Welsh–Powell comparator: higher degree first, ties by name
ascending. -/
def courseBefore (a b : Course) : Bool :=
  if a.conflicts.length = b.conflicts.length then strLe a.name b.name
  else decide (b.conflicts.length < a.conflicts.length)

def sortCourses (l : List Course) : List Course := sortByLe courseBefore l

/-- Source `[a, b].sort().join('|')`, kept as a pair. -/
def canonPair (a b : String) : String × String :=
  if strLe a b then (a, b) else (b, a)

/-- The deduplicated list of canonical conflict pairs, in the insertion order
of the source's `Set<string>` of pair keys. -/
def conflictPairList (l : List Course) : List (String × String) :=
  l.foldl
    (fun ps c =>
      c.conflicts.foldl (fun ps b => dedupInsert ps (canonPair c.name b)) ps)
    []

/-- The set of distinct unordered conflict pairs of a graph, stated as the
specification does ("distinct unordered pairs (A,B) with B ∈ A.conflicts"). -/
def uPairs (g : CourseGraph) : Finset (String × String) :=
  (g.flatMap (fun c => c.conflicts.map (canonPair c.name))).toFinset

/-- JavaScript `Math.round` (half away from minus infinity). -/
def jsRound (q : ℚ) : ℤ := ⌊q + 1 / 2⌋

/-- Source `Math.round(avg * 10) / 10` where `avg` is the degree sum over the course
count (0 on an empty list). -/
def avgOf (l : List Course) : ℚ :=
  let degSum : ℚ := ((l.map (fun c => c.conflicts.length)).sum : ℕ)
  let avg : ℚ := if 0 < l.length then degSum / (l.length : ℚ) else 0
  (jsRound (avg * 10) : ℚ) / 10

structure ScheduleResult where
  courses : CourseGraph
  slots : List (Nat × List String)
  totalSlots : Nat
  totalConflicts : Nat
  students : List Student
  averageConflictsPerCourse : ℚ
  /-- `conflictDetails.totalPairs` -/
  totalPairs : Nat
  /-- `conflictDetails.conflictPairsList` -/
  conflictPairsList : List (String × String)
deriving Repr, DecidableEq

/-! ## Greedy colorer (`greedyColoring`, lines 160–296) -/

/-- Slot admission check of the source: the candidate course conflicts with
nobody already in the slot (`course.conflicts.has(existingCourse)`). -/
def slotOk (c : Course) (members : List String) : Bool :=
  members.all (fun m => !(c.conflicts.contains m))

/-- The `while (!assigned)` loop: try slots 1, 2, … and join the first one
without a conflict, opening a new slot after the last existing one if all
fail.  Slot `i + 1` is the `i`-th entry of the list (the source's slot
numbers are exactly the contiguous keys `1..slots.size`, created in order). -/
def placeCourse (c : Course) : List (List String) → List (List String)
  | [] => [[c.name]]
  | m :: rest =>
    if slotOk c m then (m ++ [c.name]) :: rest else m :: placeCourse c rest

/-- First-fit assignment of every course, in the Welsh–Powell order. -/
def assignSlots (l : List Course) : List (List String) :=
  l.foldl (fun ss c => placeCourse c ss) []

/-- The 1-based number of the first slot whose member list contains `n`. -/
def slotOfName (ss : List (List String)) (n : String) : Option Nat :=
  match ss with
  | [] => none
  | m :: rest => if n ∈ m then some 1 else (slotOfName rest n).map (· + 1)

/-- Write the `slot`/`color` fields the source assigns at placement time. -/
def applySlots (ss : List (List String)) (c : Course) : Course :=
  match slotOfName ss c.name with
  | some s => { c with slot := some s, color := some (colorForSlot s) }
  | none => c

/-- The slots `Map<number, string[]>` as an insertion-ordered list of pairs:
in the greedy colorer the keys are created in the order 1, 2, … . -/
def toSlotPairsFrom (k : Nat) : List (List String) → List (Nat × List String)
  | [] => []
  | m :: rest => (k, m) :: toSlotPairsFrom (k + 1) rest

def toSlotPairs (ss : List (List String)) : List (Nat × List String) :=
  toSlotPairsFrom 1 ss

/-- Source `greedyColoring(courses, students?)`.  The returned `courses` is the input
map itself, its records reset and then given fresh `slot`/`color` fields. -/
def greedyColoring (g : CourseGraph) (students : Option (List Student)) :
    ScheduleResult :=
  if g.isEmpty then
    { courses := g, slots := [], totalSlots := 0, totalConflicts := 0,
      students := students.getD [], averageConflictsPerCourse := 0,
      totalPairs := 0, conflictPairsList := [] }
  else
    let sorted := sortCourses (g.map resetCourse)
    let pairs := conflictPairList sorted
    let ss := assignSlots sorted
    { courses := (g.map resetCourse).map (applySlots ss),
      slots := toSlotPairs ss,
      totalSlots := ss.length,
      totalConflicts := pairs.length,
      students := students.getD [],
      averageConflictsPerCourse := avgOf sorted,
      totalPairs := pairs.length,
      conflictPairsList := pairs }

/-! ## Solution verifier (`verifySolution`, lines 299–314) -/

/-- The inner `j` loop: `a` against every later member. -/
def noPairConflict (g : CourseGraph) (a : String) : List String → Bool
  | [] => true
  | b :: rest =>
    !((conflictsOf g a).contains b) && !((conflictsOf g b).contains a) &&
      noPairConflict g a rest

/-- The `i`/`j` double loop over one slot's member list. -/
def slotValid (g : CourseGraph) : List String → Bool
  | [] => true
  | a :: rest => noPairConflict g a rest && slotValid g rest

/-- Source `verifySolution(courses, slots)`. -/
def verifySolution (g : CourseGraph) (slots : List (Nat × List String)) :
    Bool :=
  slots.all (fun p => slotValid g p.2)

/-- The condition under which `greedyColoring` logs
`CRITICAL ERROR: Generated solution contains conflicts!` (its only signal of
a verification failure; the normal result is returned regardless). -/
def greedyCriticalError (g : CourseGraph)
    (students : Option (List Student)) : Bool :=
  !(verifySolution (greedyColoring g students).courses
      (greedyColoring g students).slots)

/-! ## DSATUR colorer (`dsaturColoring`, lines 317–422) -/

/-- The deep copy taken by `dsaturColoring`: same names and conflict sets,
`slot`/`color` cleared. -/
def copyCourse (c : Course) : Course :=
  { name := c.name, conflicts := c.conflicts, slot := none, color := none }

def copyGraph (g : CourseGraph) : CourseGraph := g.map copyCourse

/-- Source `colorAssignment.get(n)` over the list of colored courses (in coloring
order). -/
def lookupColor (A : List (String × Nat)) (n : String) : Option Nat :=
  (A.find? (fun p => p.1 == n)).map (fun p => p.2)

/-- The saturation of `u`: the number of distinct colors of already-colored
courses whose conflict set mentions `u` (exactly the set the source maintains
incrementally via `saturation.get(nb).add(color)`). -/
def satOf (g : CourseGraph) (A : List (String × Nat)) (u : String) : Nat :=
  ((A.filter (fun p => u ∈ conflictsOf g p.1)).map (fun p => p.2)).dedup.length

/-- The DSATUR candidate comparator: larger saturation first, ties by larger
degree, then by name ascending. -/
def dsaturLe (g : CourseGraph) (A : List (String × Nat)) (a b : String) :
    Bool :=
  if satOf g A a = satOf g A b then
    if (conflictsOf g a).length = (conflictsOf g b).length then
      strLe a b
    else decide ((conflictsOf g b).length < (conflictsOf g a).length)
  else decide (satOf g A b < satOf g A a)

/-- Source `candidates.sort(...)[0]`. -/
def dsaturPick (g : CourseGraph) (A : List (String × Nat))
    (candidates : List String) : Option String :=
  (sortByLe (dsaturLe g A) candidates).head?

/-- The colors of the already-colored neighbours of `v`. -/
def usedColors (g : CourseGraph) (A : List (String × Nat)) (v : String) :
    List Nat :=
  (conflictsOf g v).filterMap (fun nb => lookupColor A nb)

/-- Source `let color = 1; while (neighborColors.has(color)) color++`, with explicit
fuel so that it is structurally recursive; `used.length + 1` probes always
reach a free color (the loop scans distinct candidate values). -/
def firstFreeFrom (used : List Nat) : Nat → Nat → Nat
  | c, 0 => c
  | c, fuel + 1 => if c ∈ used then firstFreeFrom used (c + 1) fuel else c

def firstFree (used : List Nat) : Nat :=
  firstFreeFrom used 1 (used.length + 1)

/-- The `while (true)` selection loop; one unit of fuel per course suffices
since every iteration colors a previously uncolored course. -/
def dsaturLoop (g : CourseGraph) (names : List String) :
    Nat → List (String × Nat) → List (String × Nat)
  | 0, A => A
  | fuel + 1, A =>
    let candidates := names.filter (fun n => (lookupColor A n).isNone)
    match dsaturPick g A candidates with
    | none => A
    | some v =>
      dsaturLoop g names fuel (A ++ [(v, firstFree (usedColors g A v))])

/-- JavaScript `Map.set`-or-append on the slots map: push onto an existing key's list in
place, otherwise append a new key at the end. -/
def slotsAdd (slots : List (Nat × List String)) (k : Nat) (n : String) :
    List (Nat × List String) :=
  if slots.any (fun p => p.1 == k) then
    slots.map (fun p => if p.1 == k then (p.1, p.2 ++ [n]) else p)
  else slots ++ [(k, [n])]

/-- Source `colorAssignment.forEach(...)` building the slots map, iterating the
course names in map insertion order; `col || 1` is the source's fallback. -/
def buildDsaturSlots (names : List String) (A : List (String × Nat)) :
    List (Nat × List String) :=
  names.foldl (fun slots n => slotsAdd slots ((lookupColor A n).getD 1) n) []

/-- The `slot`/`color` write `course.slot = slotNum; course.color = ...` of
the final `colorAssignment.forEach` pass. -/
def dsaturApply (A : List (String × Nat)) (c : Course) : Course :=
  { c with slot := some ((lookupColor A c.name).getD 1),
           color := some (colorForSlot ((lookupColor A c.name).getD 1)) }

/-- Source `dsaturColoring(originalCourses, students?)`: works on a deep copy of the
input map; the returned `courses` is that copy with fresh `slot`/`color`. -/
def dsaturColoring (g : CourseGraph) (students : Option (List Student)) :
    ScheduleResult :=
  let courses := copyGraph g
  let names := courses.map (fun c => c.name)
  if courses.length = 0 then
    { courses := courses, slots := [], totalSlots := 0, totalConflicts := 0,
      students := students.getD [], averageConflictsPerCourse := 0,
      totalPairs := 0, conflictPairsList := [] }
  else
    let A := dsaturLoop courses names names.length []
    let slots := buildDsaturSlots names A
    let finalCourses := courses.map (dsaturApply A)
    let pairs := conflictPairList finalCourses
    { courses := finalCourses, slots := slots, totalSlots := slots.length,
      totalConflicts := pairs.length, students := students.getD [],
      averageConflictsPerCourse := avgOf finalCourses,
      totalPairs := pairs.length, conflictPairsList := pairs }

/-! ## Concrete inputs used in witnesses and counterexamples -/

/-- The worked scenario of the specification: `S1: Math, Physics`;
`S2: Physics, Chemistry`. -/
def demoStudents : List Student :=
  [{ id := "S1", courses := ["Math", "Physics"] },
   { id := "S2", courses := ["Physics", "Chemistry"] }]

def demoNames : List String := ["Math", "Physics", "Chemistry"]

def demoGraph : CourseGraph := buildConflictGraph demoStudents demoNames

/-- An asymmetric course map: `A` lists `B` as a conflict but not
conversely.  No `buildConflictGraph` output looks like this, but
`greedyColoring` accepts any map. -/
def gAsym : CourseGraph :=
  [{ name := "A", conflicts := ["B"] }, { name := "B", conflicts := [] }]

/-- A triangle: three pairwise-conflicting courses. -/
def gTri : CourseGraph :=
  [{ name := "A", conflicts := ["B", "C"] },
   { name := "B", conflicts := ["A", "C"] },
   { name := "C", conflicts := ["A", "B"] }]

/-- The triangle with stale `slot`/`color` data left on the records. -/
def gTriStale : CourseGraph :=
  [{ name := "A", conflicts := ["B", "C"], slot := some 7, color := some "x" },
   { name := "B", conflicts := ["A", "C"] },
   { name := "C", conflicts := ["A", "B"], slot := some 2, color := some "y" }]

/-- The triangle with every conflict list in reversed insertion order. -/
def gTriRev : CourseGraph :=
  [{ name := "A", conflicts := ["C", "B"] },
   { name := "B", conflicts := ["C", "A"] },
   { name := "C", conflicts := ["B", "A"] }]

/-- A student who lists the same course twice. -/
def dupStudent : Student := { id := "S1", courses := ["A", "A"] }

/-! ## Invariants and abbreviations used by the verification -/

/-- The invariant the first-fit loop maintains on the slot lists: every
member is a course of the graph, and no two members of one slot conflict in
either direction. -/
def SlotsInv (g : CourseGraph) (ss : List (List String)) : Prop :=
  ∀ m ∈ ss, (∀ x ∈ m, x ∈ graphNames g) ∧
    m.Pairwise (fun a b => b ∉ conflictsOf g a ∧ a ∉ conflictsOf g b)

/-- The implicit partition property of claim C10: slot keys are exactly the
contiguous range `1..totalSlots`, and every course of the result appears in
exactly one slot's membership list, its `slot` field naming that slot. -/
def SlotsPartitionOk (r : ScheduleResult) : Prop :=
  (r.slots.map Prod.fst).Nodup ∧
  (r.slots.map Prod.fst).toFinset = Finset.Icc 1 r.totalSlots ∧
  ∀ c ∈ r.courses,
    ((r.slots.map Prod.snd).flatten.count c.name = 1 ∧
      ∃ k m, (k, m) ∈ r.slots ∧ c.name ∈ m ∧ c.slot = some k)

/-- The invariant of the DSATUR selection loop on the partial color
assignment: colored courses are distinct names of the map, a later-colored
course never shares its color with an earlier-colored one whose conflict set
is involved (in the direction the algorithm checks), every color is at least
1, and the colors used below any assigned color are all assigned. -/
def DsatInv (g : CourseGraph) (names : List String)
    (A : List (String × Nat)) : Prop :=
  (A.map Prod.fst).Nodup ∧
  (∀ p ∈ A, p.1 ∈ names) ∧
  A.Pairwise (fun p q => p.1 ∈ conflictsOf g q.1 → p.2 ≠ q.2) ∧
  (∀ p ∈ A, 1 ≤ p.2 ∧ ∀ k, 1 ≤ k → k < p.2 → ∃ u, (u, k) ∈ A)

/-- The invariant of the slots-map construction pass: distinct keys, every
member of a key's list has that key as its color, the members so far are
exactly the processed names, and the keys are exactly the colors of the
processed names. -/
def SlotsAccOk (A : List (String × Nat)) (processed : List String)
    (slots : List (Nat × List String)) : Prop :=
  (slots.map Prod.fst).Nodup ∧
  (∀ p ∈ slots, ∀ x ∈ p.2, (lookupColor A x).getD 1 = p.1) ∧
  ((slots.map Prod.snd).flatten.Perm processed) ∧
  (∀ j, j ∈ slots.map Prod.fst ↔
    ∃ n ∈ processed, (lookupColor A n).getD 1 = j)

/-- The name list used inside `dsaturColoring`. -/
def dsatNames (g : CourseGraph) : List String :=
  (copyGraph g).map (fun c => c.name)

/-- The final color assignment computed inside `dsaturColoring`. -/
def dsatA (g : CourseGraph) : List (String × Nat) :=
  dsaturLoop (copyGraph g) (dsatNames g) (dsatNames g).length []

/-- The slots map computed inside `dsaturColoring`. -/
def dsatSlots (g : CourseGraph) : List (Nat × List String) :=
  buildDsaturSlots (dsatNames g) (dsatA g)

/-- Structural identity of two course records: same name, same conflict set
(insertion order of the set being irrelevant), any `slot`/`color` data. -/
def CourseEqv (c c2 : Course) : Prop :=
  c.name = c2.name ∧ c.conflicts.Perm c2.conflicts

/-! ## Generic list lemmas -/

theorem mem_dedupInsert [DecidableEq α] (s : List α) (x y : α) :
    y ∈ dedupInsert s x ↔ y ∈ s ∨ y = x := by
  unfold dedupInsert
  by_cases h : x ∈ s
  · simp only [if_pos h]
    constructor
    · exact Or.inl
    · rintro (hy | rfl)
      · exact hy
      · exact h
  · simp [if_neg h]

theorem nodup_dedupInsert [DecidableEq α] {s : List α} (h : s.Nodup)
    (x : α) : (dedupInsert s x).Nodup := by
  unfold dedupInsert
  by_cases hx : x ∈ s
  · simpa [if_pos hx]
  · simp [if_neg hx, List.nodup_append, h, hx]

theorem insertLe_perm (le : α → α → Bool) (a : α) (l : List α) :
    (insertLe le a l).Perm (a :: l) := by
  induction l with
  | nil => exact List.Perm.refl _
  | cons b bs ih =>
    unfold insertLe
    by_cases h : le a b
    · simp only [if_pos h]
      exact List.Perm.refl _
    · simp only [if_neg h]
      exact (ih.cons b).trans (List.Perm.swap a b bs)

theorem sortByLe_perm (le : α → α → Bool) (l : List α) :
    (sortByLe le l).Perm l := by
  induction l with
  | nil => exact List.Perm.refl _
  | cons a l ih => exact (insertLe_perm le a _).trans (ih.cons a)

/-! ## Lookup lemmas -/

@[simp] theorem graphNames_nil : graphNames [] = [] := rfl

@[simp] theorem graphNames_cons (c : Course) (g : CourseGraph) :
    graphNames (c :: g) = c.name :: graphNames g := rfl

theorem mem_graphNames_of_mem {c : Course} {g : CourseGraph} (h : c ∈ g) :
    c.name ∈ graphNames g := List.mem_map_of_mem _ h

theorem conflictsOf_nil (n : String) : conflictsOf [] n = [] := rfl

theorem conflictsOf_cons (c : Course) (g : CourseGraph) (n : String) :
    conflictsOf (c :: g) n =
      if c.name = n then c.conflicts else conflictsOf g n := by
  unfold conflictsOf
  by_cases h : c.name = n
  · simp [List.find?_cons, h]
  · simp [List.find?_cons, h]

theorem conflictsOf_map_preserve {f : Course → Course}
    (hf : ∀ c, (f c).name = c.name ∧ (f c).conflicts = c.conflicts)
    (g : CourseGraph) (n : String) :
    conflictsOf (g.map f) n = conflictsOf g n := by
  induction g with
  | nil => rfl
  | cons c g ih =>
    simp only [List.map_cons]
    rw [conflictsOf_cons, conflictsOf_cons, (hf c).1, (hf c).2, ih]

theorem graphNames_map_preserve {f : Course → Course}
    (hf : ∀ c, (f c).name = c.name) (g : CourseGraph) :
    graphNames (g.map f) = graphNames g := by
  unfold graphNames
  rw [List.map_map]
  exact List.map_congr_left (fun c _ => hf c)

theorem conflictsOf_of_mem {g : CourseGraph} (hnd : (graphNames g).Nodup)
    {c : Course} (hc : c ∈ g) : conflictsOf g c.name = c.conflicts := by
  induction g with
  | nil => cases hc
  | cons d g ih =>
    rcases List.mem_cons.mp hc with rfl | hc
    · rw [conflictsOf_cons, if_pos rfl]
    · rw [conflictsOf_cons]
      have hd : d.name ∉ graphNames g := (List.nodup_cons.mp hnd).1
      rw [if_neg ?_]
      · exact ih (List.nodup_cons.mp hnd).2 hc
      · intro h
        rw [h] at hd
        exact hd (mem_graphNames_of_mem hc)

theorem conflictsOf_not_mem {g : CourseGraph} {n : String}
    (h : n ∉ graphNames g) : conflictsOf g n = [] := by
  induction g with
  | nil => rfl
  | cons d g ih =>
    rw [conflictsOf_cons, if_neg, ih (fun hx => h (List.mem_cons_of_mem _ hx))]
    intro hx
    subst hx
    exact h (List.mem_cons_self _ _)

/-! ## Builder lemmas -/

theorem conflictsOf_eq_nil_of_all {g : CourseGraph}
    (h : ∀ c ∈ g, c.conflicts = []) (n : String) : conflictsOf g n = [] := by
  unfold conflictsOf
  cases hf : g.find? (fun c => c.name == n) with
  | none => rfl
  | some c => exact h c (List.mem_of_find?_eq_some hf)

theorem insertCourse_conflicts {g : CourseGraph}
    (h : ∀ c ∈ g, c.conflicts = []) (n : String) :
    ∀ c ∈ insertCourse g n, c.conflicts = [] := by
  unfold insertCourse
  by_cases hx : g.any (fun c => c.name == n)
  · rw [if_pos hx]
    intro c hc
    rcases List.mem_map.mp hc with ⟨d, hd, rfl⟩
    by_cases hdn : d.name == n <;> simp [hdn, h d hd]
  · rw [if_neg hx]
    intro c hc
    rcases List.mem_append.mp hc with hc | hc
    · exact h c hc
    · rw [List.mem_singleton.mp hc]

theorem initGraph_conflicts (courseNames : List String) :
    ∀ c ∈ initGraph courseNames, c.conflicts = [] := by
  unfold initGraph
  suffices h : ∀ (l : List String) (g : CourseGraph),
      (∀ c ∈ g, c.conflicts = []) →
      ∀ c ∈ l.foldl
        (fun g n => if jsTrim n ≠ "" then insertCourse g (jsTrim n) else g) g,
        c.conflicts = [] by
    exact h _ [] (by intro c hc; cases hc)
  intro l
  induction l with
  | nil => intro g hg; exact hg
  | cons n l ih =>
    intro g hg
    simp only [List.foldl_cons]
    by_cases hn : jsTrim n ≠ ""
    · rw [if_pos hn]
      exact ih _ (insertCourse_conflicts hg (jsTrim n))
    · rw [if_neg hn]
      exact ih _ hg

theorem graphNames_addConflict (g : CourseGraph) (a b : String) :
    graphNames (addConflict g a b) = graphNames g := by
  unfold addConflict
  apply graphNames_map_preserve
  intro c
  by_cases h : c.name == a <;> simp [h]

@[simp] theorem Course_update_name (c : Course) (l : List String) :
    (({ c with conflicts := l } : Course)).name = c.name := rfl

@[simp] theorem Course_update_conflicts (c : Course) (l : List String) :
    (({ c with conflicts := l } : Course)).conflicts = l := rfl

theorem addConflict_cons (c : Course) (g : CourseGraph) (a b : String) :
    addConflict (c :: g) a b =
      (if c.name = a then { c with conflicts := dedupInsert c.conflicts b }
       else c) :: addConflict g a b := by
  by_cases h : c.name = a <;> simp [addConflict, h]

theorem conflictsOf_addConflict (g : CourseGraph) (a b n : String) :
    conflictsOf (addConflict g a b) n =
      if n = a ∧ a ∈ graphNames g then dedupInsert (conflictsOf g n) b
      else conflictsOf g n := by
  induction g with
  | nil => simp [addConflict, conflictsOf_nil]
  | cons c g ih =>
    rw [addConflict_cons]
    by_cases hca : c.name = a
    · rw [if_pos hca, conflictsOf_cons, Course_update_name,
        Course_update_conflicts]
      by_cases hcn : c.name = n
      · have hna : n = a := by rw [← hcn]; exact hca
        have hmem : a ∈ graphNames (c :: g) := by
          rw [graphNames_cons, hca]
          exact List.mem_cons_self _ _
        rw [if_pos hcn, if_pos ⟨hna, hmem⟩, conflictsOf_cons, if_pos hcn]
      · have hna : n ≠ a := by
          intro h
          exact hcn (by rw [hca, ← h])
        rw [if_neg hcn, ih, if_neg (fun h => hna h.1),
          if_neg (fun h : n = a ∧ a ∈ graphNames (c :: g) => hna h.1),
          conflictsOf_cons, if_neg hcn]
    · rw [if_neg hca, conflictsOf_cons]
      by_cases hcn : c.name = n
      · have hna : n ≠ a := by
          intro h
          exact hca (by rw [hcn, h])
        rw [if_pos hcn,
          if_neg (fun h : n = a ∧ a ∈ graphNames (c :: g) => hna h.1),
          conflictsOf_cons, if_pos hcn]
      · rw [if_neg hcn, ih, conflictsOf_cons, if_neg hcn]
        by_cases hcond : n = a ∧ a ∈ graphNames g
        · have hcond2 : n = a ∧ a ∈ graphNames (c :: g) := by
            refine ⟨hcond.1, ?_⟩
            rw [graphNames_cons]
            exact List.mem_cons_of_mem _ hcond.2
          rw [if_pos hcond, if_pos hcond2]
        · have hcond2 : ¬(n = a ∧ a ∈ graphNames (c :: g)) := by
            rintro ⟨rfl, hm⟩
            rw [graphNames_cons] at hm
            rcases List.mem_cons.mp hm with h | h
            · exact hca h.symm
            · exact hcond ⟨rfl, h⟩
          rw [if_neg hcond, if_neg hcond2]

theorem graphNames_addBoth (g : CourseGraph) (p : String × String) :
    graphNames (addBoth g p) = graphNames g := by
  unfold addBoth
  rw [graphNames_addConflict, graphNames_addConflict]

theorem mem_conflictsOf_addBoth (g : CourseGraph) (p : String × String)
    (n x : String) :
    x ∈ conflictsOf (addBoth g p) n ↔
      x ∈ conflictsOf g n ∨ (n = p.1 ∧ p.1 ∈ graphNames g ∧ x = p.2) ∨
        (n = p.2 ∧ p.2 ∈ graphNames g ∧ x = p.1) := by
  unfold addBoth
  rw [conflictsOf_addConflict, graphNames_addConflict]
  by_cases h2 : n = p.2 ∧ p.2 ∈ graphNames g
  · rw [if_pos h2, mem_dedupInsert, conflictsOf_addConflict]
    by_cases h1 : n = p.1 ∧ p.1 ∈ graphNames g
    · rw [if_pos h1, mem_dedupInsert]
      tauto
    · rw [if_neg h1]
      tauto
  · rw [if_neg h2, conflictsOf_addConflict]
    by_cases h1 : n = p.1 ∧ p.1 ∈ graphNames g
    · rw [if_pos h1, mem_dedupInsert]
      tauto
    · rw [if_neg h1]
      tauto

theorem graphSymm_addBoth {g : CourseGraph} (hs : GraphSymm g)
    (p : String × String) : GraphSymm (addBoth g p) := by
  intro a ha b hb
  rw [graphNames_addBoth] at ha hb
  rw [mem_conflictsOf_addBoth, mem_conflictsOf_addBoth]
  constructor
  · rintro (h | ⟨rfl, h1, rfl⟩ | ⟨rfl, h2, rfl⟩)
    · exact Or.inl ((hs a ha b hb).mp h)
    · exact Or.inr (Or.inr ⟨rfl, hb, rfl⟩)
    · exact Or.inr (Or.inl ⟨rfl, hb, rfl⟩)
  · rintro (h | ⟨rfl, h1, rfl⟩ | ⟨rfl, h2, rfl⟩)
    · exact Or.inl ((hs a ha b hb).mpr h)
    · exact Or.inr (Or.inr ⟨rfl, ha, rfl⟩)
    · exact Or.inr (Or.inl ⟨rfl, ha, rfl⟩)

theorem noSelfConflict_addBoth {g : CourseGraph} (hs : NoSelfConflict g)
    {p : String × String} (hne : p.1 ≠ p.2) :
    NoSelfConflict (addBoth g p) := by
  intro a ha
  rw [graphNames_addBoth] at ha
  rw [mem_conflictsOf_addBoth]
  have := hs a ha
  rintro (h | ⟨rfl, -, h2⟩ | ⟨rfl, -, h2⟩)
  · exact this h
  · exact hne h2
  · exact hne h2.symm

theorem foldl_preserve (P : γ → Prop) (step : γ → β → γ)
    (hstep : ∀ g b, P g → P (step g b)) :
    ∀ (l : List β) (g : γ), P g → P (l.foldl step g) := by
  intro l
  induction l with
  | nil => intro g hg; exact hg
  | cons b l ih => intro g hg; exact ih _ (hstep g b hg)

theorem graphSymm_initGraph (courseNames : List String) :
    GraphSymm (initGraph courseNames) := by
  intro a _ b _
  rw [conflictsOf_eq_nil_of_all (initGraph_conflicts courseNames),
    conflictsOf_eq_nil_of_all (initGraph_conflicts courseNames)]
  simp

theorem noSelfConflict_initGraph (courseNames : List String) :
    NoSelfConflict (initGraph courseNames) := by
  intro a _
  rw [conflictsOf_eq_nil_of_all (initGraph_conflicts courseNames)]
  exact List.not_mem_nil a

theorem graphSymm_addStudentConflicts {g : CourseGraph} (hs : GraphSymm g)
    (valid : List String) (st : Student) :
    GraphSymm (addStudentConflicts valid g st) := by
  unfold addStudentConflicts
  by_cases h : 1 < (filteredCourses valid st.courses).length
  · rw [if_pos h]
    exact foldl_preserve GraphSymm addBoth
      (fun g p hg => graphSymm_addBoth hg p) _ g hs
  · rw [if_neg h]
    exact hs

theorem mem_allPairs {l : List α} {p : α × α} (hp : p ∈ allPairs l) :
    p.1 ∈ l ∧ p.2 ∈ l := by
  induction l with
  | nil => cases hp
  | cons x xs ih =>
    rw [allPairs] at hp
    rcases List.mem_append.mp hp with h | h
    · rcases List.mem_map.mp h with ⟨y, hy, rfl⟩
      exact ⟨List.mem_cons_self _ _, List.mem_cons_of_mem _ hy⟩
    · have h2 := ih h
      exact ⟨List.mem_cons_of_mem _ h2.1, List.mem_cons_of_mem _ h2.2⟩

theorem allPairs_ne {l : List α} (hnd : l.Nodup) {p : α × α}
    (hp : p ∈ allPairs l) : p.1 ≠ p.2 := by
  induction l with
  | nil => cases hp
  | cons x xs ih =>
    rw [allPairs] at hp
    rcases List.mem_append.mp hp with h | h
    · rcases List.mem_map.mp h with ⟨y, hy, rfl⟩
      intro he
      have he2 : x = y := he
      exact (List.nodup_cons.mp hnd).1 (by rw [he2]; exact hy)
    · exact ih (List.nodup_cons.mp hnd).2 h

theorem mem_conflictsOf_foldl_addBoth (ps : List (String × String)) :
    ∀ (g : CourseGraph) (a x : String),
      x ∈ conflictsOf (ps.foldl addBoth g) a →
      x ∈ conflictsOf g a ∨
        ∃ p ∈ ps, (a = p.1 ∧ x = p.2) ∨ (a = p.2 ∧ x = p.1) := by
  induction ps with
  | nil => intro g a x h; exact Or.inl h
  | cons p ps ih =>
    intro g a x h
    rcases ih _ a x h with h2 | ⟨q, hq, hcase⟩
    · rw [mem_conflictsOf_addBoth] at h2
      rcases h2 with h3 | ⟨rfl, -, rfl⟩ | ⟨rfl, -, rfl⟩
      · exact Or.inl h3
      · exact Or.inr ⟨p, List.mem_cons_self _ _, Or.inl ⟨rfl, rfl⟩⟩
      · exact Or.inr ⟨p, List.mem_cons_self _ _, Or.inr ⟨rfl, rfl⟩⟩
    · exact Or.inr ⟨q, List.mem_cons_of_mem _ hq, hcase⟩

theorem mem_conflictsOf_addStudentConflicts {valid : List String}
    {g : CourseGraph} {st : Student} {a x : String}
    (h : x ∈ conflictsOf (addStudentConflicts valid g st) a) :
    x ∈ conflictsOf g a ∨
      (a ∈ filteredCourses valid st.courses ∧
       x ∈ filteredCourses valid st.courses ∧
       ((filteredCourses valid st.courses).Nodup → a ≠ x)) := by
  unfold addStudentConflicts at h
  by_cases hlen : 1 < (filteredCourses valid st.courses).length
  · rw [if_pos hlen] at h
    rcases mem_conflictsOf_foldl_addBoth _ g a x h with h2 | ⟨p, hp, hc⟩
    · exact Or.inl h2
    · right
      have hm := mem_allPairs hp
      rcases hc with ⟨rfl, rfl⟩ | ⟨rfl, rfl⟩
      · exact ⟨hm.1, hm.2, fun hnd => allPairs_ne hnd hp⟩
      · exact ⟨hm.2, hm.1, fun hnd h2 => allPairs_ne hnd hp h2.symm⟩
  · rw [if_neg hlen] at h
    exact Or.inl h

theorem mem_conflictsOf_foldl_students (valid : List String)
    (sts : List Student) :
    ∀ (g : CourseGraph) (a x : String),
      x ∈ conflictsOf (sts.foldl (addStudentConflicts valid) g) a →
      x ∈ conflictsOf g a ∨
        ∃ st ∈ sts, a ∈ filteredCourses valid st.courses ∧
          x ∈ filteredCourses valid st.courses ∧
          ((filteredCourses valid st.courses).Nodup → a ≠ x) := by
  induction sts with
  | nil => intro g a x h; exact Or.inl h
  | cons st sts ih =>
    intro g a x h
    rcases ih _ a x h with h2 | ⟨st2, hst2, hc⟩
    · rcases mem_conflictsOf_addStudentConflicts h2 with h3 | hc
      · exact Or.inl h3
      · exact Or.inr ⟨st, List.mem_cons_self _ _, hc⟩
    · exact Or.inr ⟨st2, List.mem_cons_of_mem _ hst2, hc⟩

/-- C3 (claim theorem): for every sequence of students and every course
universe, the graph returned by `buildConflictGraph` is symmetric: for all
courses `A` and `B` in the graph, `B ∈ A.conflicts ↔ A ∈ B.conflicts`. -/
theorem buildConflictGraph_symmetric (students : List Student)
    (courseNames : List String) :
    GraphSymm (buildConflictGraph students courseNames) :=
  foldl_preserve GraphSymm (addStudentConflicts (validCoursesOf courseNames))
    (fun _g st hg => graphSymm_addStudentConflicts hg _ st) students
    (initGraph courseNames) (graphSymm_initGraph courseNames)

/-- C3 (witness): the symmetry theorem applied to the worked scenario of the
specification. -/
theorem buildConflictGraph_symmetric_witness : GraphSymm demoGraph :=
  buildConflictGraph_symmetric demoStudents demoNames

/-- C2 (counterexample): a student who lists the same course twice makes
`buildConflictGraph` add that course to its own conflict set, so the claimed
no-self-conflict invariant fails on the code as written. -/
theorem buildConflictGraph_self_conflict :
    "A" ∈ conflictsOf (buildConflictGraph [dupStudent] ["A"]) "A" ∧
      ¬NoSelfConflict (buildConflictGraph [dupStudent] ["A"]) := by
  decide

/-- C2 (amended claim theorem): provided every student's filtered course
subsequence is duplicate-free, no course appears in its own conflict set, and
any `x` in the conflict set of `a` comes from an unordered pair of distinct
courses inside some student's filtered subsequence. -/
theorem buildConflictGraph_no_self_and_links (students : List Student)
    (courseNames : List String)
    (hnd : ∀ st ∈ students,
      (filteredCourses (validCoursesOf courseNames) st.courses).Nodup) :
    NoSelfConflict (buildConflictGraph students courseNames) ∧
    ∀ a x, x ∈ conflictsOf (buildConflictGraph students courseNames) a →
      a ≠ x ∧ ∃ st ∈ students,
        a ∈ filteredCourses (validCoursesOf courseNames) st.courses ∧
        x ∈ filteredCourses (validCoursesOf courseNames) st.courses := by
  have hlink : ∀ a x,
      x ∈ conflictsOf (buildConflictGraph students courseNames) a →
      a ≠ x ∧ ∃ st ∈ students,
        a ∈ filteredCourses (validCoursesOf courseNames) st.courses ∧
        x ∈ filteredCourses (validCoursesOf courseNames) st.courses := by
    intro a x h
    rcases mem_conflictsOf_foldl_students _ students _ a x h with h2 | h2
    · rw [conflictsOf_eq_nil_of_all (initGraph_conflicts courseNames)] at h2
      cases h2
    · rcases h2 with ⟨st, hst, ha, hx, hne⟩
      exact ⟨hne (hnd st hst), st, hst, ha, hx⟩
  refine ⟨?_, hlink⟩
  intro a _ ha
  exact (hlink a a ha).1 rfl

/-- C2 (amended-claim witness): the amended theorem applied to the worked
scenario, whose students have duplicate-free course lists. -/
theorem buildConflictGraph_no_self_witness :
    (∀ st ∈ demoStudents,
      (filteredCourses (validCoursesOf demoNames) st.courses).Nodup) ∧
      NoSelfConflict demoGraph :=
  ⟨by decide,
    (buildConflictGraph_no_self_and_links demoStudents demoNames
      (by decide)).1⟩

/-! ## Claims C9 and C4 -/

/-- C9 (claim theorem): on the concrete scenario `S1: Math, Physics`,
`S2: Physics, Chemistry` over the universe `[Math, Physics, Chemistry]`, the
built graph has exactly the conflicts Math–Physics and Physics–Chemistry,
and the greedy colorer returns slot 1 = [Physics], slot 2 =
[Chemistry, Math] (in that insertion order), 2 total slots and 2 total
conflicts. -/
theorem demo_schedule_exact :
    conflictsOf demoGraph "Math" = ["Physics"] ∧
    conflictsOf demoGraph "Physics" = ["Math", "Chemistry"] ∧
    conflictsOf demoGraph "Chemistry" = ["Physics"] ∧
    (greedyColoring demoGraph (some demoStudents)).slots =
      [(1, ["Physics"]), (2, ["Chemistry", "Math"])] ∧
    (greedyColoring demoGraph (some demoStudents)).totalSlots = 2 ∧
    (greedyColoring demoGraph (some demoStudents)).totalConflicts = 2 := by
  decide

theorem toSlotPairsFrom_length (ss : List (List String)) :
    ∀ k, (toSlotPairsFrom k ss).length = ss.length := by
  induction ss with
  | nil => intro k; rfl
  | cons m rest ih =>
    intro k
    rw [toSlotPairsFrom, List.length_cons, ih, List.length_cons]

/-- C4 (counterexample): on the asymmetric map `gAsym` the verifier rejects
the greedy coloring, yet `greedyColoring` returns the ordinary
`ScheduleResult` — both courses share slot 1, `totalSlots` is 1 — and the
only failure signal is the logged critical-error condition.  The claim that
`greedyColoring` does not return a normal `ScheduleResult` in that case is
therefore false. -/
theorem greedy_verify_failure_returns_normal :
    verifySolution (greedyColoring gAsym none).courses
        (greedyColoring gAsym none).slots = false ∧
      (greedyColoring gAsym none).slots = [(1, ["A", "B"])] ∧
      (greedyColoring gAsym none).totalSlots = 1 ∧
      (greedyColoring gAsym none).courses =
        [{ name := "A", conflicts := ["B"], slot := some 1,
           color := some "#3B82F6" },
         { name := "B", conflicts := [], slot := some 1,
           color := some "#3B82F6" }] := by
  decide

/-- C4 (amended claim theorem): when the verifier returns false on the
coloring produced inside `greedyColoring`, the failure only raises the
logged critical-error condition; `greedyColoring` still returns the normal
`ScheduleResult`, covering every course of the input map, with `totalSlots`
equal to the length of its slots list. -/
theorem greedy_verify_failure_logged (g : CourseGraph)
    (s : Option (List Student))
    (h : verifySolution (greedyColoring g s).courses
      (greedyColoring g s).slots = false) :
    greedyCriticalError g s = true ∧
    (greedyColoring g s).courses.length = g.length ∧
    (greedyColoring g s).totalSlots = (greedyColoring g s).slots.length := by
  refine ⟨by rw [greedyCriticalError, h]; rfl, ?_, ?_⟩
  · by_cases hg : g.isEmpty
    · simp [greedyColoring, hg]
    · simp [greedyColoring, hg]
  · by_cases hg : g.isEmpty
    · simp [greedyColoring, hg]
    · simp [greedyColoring, hg, toSlotPairs, toSlotPairsFrom_length]

/-- C4 (witness for the amended theorem): the amended theorem applied to the
asymmetric map, whose verification fails. -/
theorem greedy_verify_failure_logged_witness :
    (verifySolution (greedyColoring gAsym none).courses
        (greedyColoring gAsym none).slots = false) ∧
      greedyCriticalError gAsym none = true ∧
      (greedyColoring gAsym none).courses.length = gAsym.length :=
  ⟨by decide, (greedy_verify_failure_logged gAsym none (by decide)).1,
    (greedy_verify_failure_logged gAsym none (by decide)).2.1⟩

/-! ## Conflict-pair counting (claim C7) -/

theorem mem_foldl_dedupInsert [DecidableEq α] (xs : List α) :
    ∀ (ps : List α) (p : α),
      p ∈ xs.foldl dedupInsert ps ↔ p ∈ ps ∨ p ∈ xs := by
  induction xs with
  | nil => intro ps p; simp
  | cons x xs ih =>
    intro ps p
    rw [List.foldl_cons, ih, mem_dedupInsert, List.mem_cons]
    tauto

theorem nodup_foldl_dedupInsert [DecidableEq α] (xs : List α) :
    ∀ ps : List α, ps.Nodup → (xs.foldl dedupInsert ps).Nodup := by
  induction xs with
  | nil => intro ps h; exact h
  | cons x xs ih =>
    intro ps h
    exact ih _ (nodup_dedupInsert h x)

theorem mem_conflictPairList (l : List Course) (p : String × String) :
    p ∈ conflictPairList l ↔
      ∃ c ∈ l, ∃ b ∈ c.conflicts, p = canonPair c.name b := by
  unfold conflictPairList
  suffices h : ∀ ps : List (String × String),
      p ∈ l.foldl (fun ps c =>
        c.conflicts.foldl
          (fun ps b => dedupInsert ps (canonPair c.name b)) ps) ps ↔
        p ∈ ps ∨ ∃ c ∈ l, ∃ b ∈ c.conflicts, p = canonPair c.name b by
    rw [h []]
    simp
  induction l with
  | nil => intro ps; simp
  | cons c l ih =>
    intro ps
    rw [List.foldl_cons, ih, ← List.foldl_map (canonPair c.name) dedupInsert,
      mem_foldl_dedupInsert, List.mem_map]
    constructor
    · rintro ((hp | ⟨b, hb, rfl⟩) | ⟨d, hd, b, hb, rfl⟩)
      · exact Or.inl hp
      · exact Or.inr ⟨c, List.mem_cons_self _ _, b, hb, rfl⟩
      · exact Or.inr ⟨d, List.mem_cons_of_mem _ hd, b, hb, rfl⟩
    · rintro (hp | ⟨d, hd, b, hb, rfl⟩)
      · exact Or.inl (Or.inl hp)
      · rcases List.mem_cons.mp hd with rfl | hd
        · exact Or.inl (Or.inr ⟨b, hb, rfl⟩)
        · exact Or.inr ⟨d, hd, b, hb, rfl⟩

theorem nodup_conflictPairList (l : List Course) :
    (conflictPairList l).Nodup := by
  unfold conflictPairList
  suffices h : ∀ ps : List (String × String), ps.Nodup →
      (l.foldl (fun ps c =>
        c.conflicts.foldl
          (fun ps b => dedupInsert ps (canonPair c.name b)) ps) ps).Nodup by
    exact h [] List.nodup_nil
  induction l with
  | nil => intro ps h; exact h
  | cons c l ih =>
    intro ps h
    rw [List.foldl_cons]
    refine ih _ ?_
    rw [← List.foldl_map (canonPair c.name) dedupInsert]
    exact nodup_foldl_dedupInsert _ _ h

theorem conflictPairList_toFinset (l : List Course) :
    (conflictPairList l).toFinset = uPairs l := by
  ext p
  rw [List.mem_toFinset, mem_conflictPairList, uPairs, List.mem_toFinset,
    List.mem_flatMap]
  constructor
  · rintro ⟨c, hc, b, hb, rfl⟩
    exact ⟨c, hc, List.mem_map_of_mem _ hb⟩
  · rintro ⟨c, hc, hp⟩
    rcases List.mem_map.mp hp with ⟨b, hb, rfl⟩
    exact ⟨c, hc, b, hb, rfl⟩

theorem conflictPairList_length (l : List Course) :
    (conflictPairList l).length = (uPairs l).card := by
  rw [← conflictPairList_toFinset,
    List.toFinset_card_of_nodup (nodup_conflictPairList l)]

theorem uPairs_perm {l l2 : List Course} (h : l.Perm l2) :
    uPairs l = uPairs l2 := by
  unfold uPairs
  ext p
  rw [List.mem_toFinset, List.mem_toFinset, List.mem_flatMap,
    List.mem_flatMap]
  constructor
  · rintro ⟨c, hc, hp⟩
    exact ⟨c, h.mem_iff.mp hc, hp⟩
  · rintro ⟨c, hc, hp⟩
    exact ⟨c, h.mem_iff.mpr hc, hp⟩

theorem uPairs_map_preserve {f : Course → Course}
    (hf : ∀ c, (f c).name = c.name ∧ (f c).conflicts = c.conflicts)
    (g : CourseGraph) : uPairs (g.map f) = uPairs g := by
  unfold uPairs
  ext p
  rw [List.mem_toFinset, List.mem_toFinset, List.mem_flatMap,
    List.mem_flatMap]
  constructor
  · rintro ⟨c, hc, hp⟩
    rcases List.mem_map.mp hc with ⟨d, hd, rfl⟩
    rw [(hf d).1, (hf d).2] at hp
    exact ⟨d, hd, hp⟩
  · rintro ⟨c, hc, hp⟩
    refine ⟨f c, List.mem_map_of_mem _ hc, ?_⟩
    rw [(hf c).1, (hf c).2]
    exact hp

theorem resetCourse_preserves (c : Course) :
    (resetCourse c).name = c.name ∧ (resetCourse c).conflicts = c.conflicts :=
  ⟨rfl, rfl⟩

theorem copyCourse_preserves (c : Course) :
    (copyCourse c).name = c.name ∧ (copyCourse c).conflicts = c.conflicts :=
  ⟨rfl, rfl⟩

theorem dsaturApply_preserves (A : List (String × Nat)) (c : Course) :
    (dsaturApply A c).name = c.name ∧
      (dsaturApply A c).conflicts = c.conflicts :=
  ⟨rfl, rfl⟩

theorem applySlots_preserves (ss : List (List String)) (c : Course) :
    (applySlots ss c).name = c.name ∧
      (applySlots ss c).conflicts = c.conflicts := by
  unfold applySlots
  cases slotOfName ss c.name <;> exact ⟨rfl, rfl⟩

/-- C7 (claim theorem): for every course-graph satisfying the symmetry
invariant, the `totalConflicts` of the result of `greedyColoring` and of
`dsaturColoring` equals the number of distinct unordered pairs (A,B) with
B in A's conflict set (the cardinality of `uPairs`, which counts each
canonical sorted pair once — not the sum of degrees). -/
theorem totalConflicts_unordered_pairs (g : CourseGraph)
    (s : Option (List Student)) (_hs : GraphSymm g) :
    (greedyColoring g s).totalConflicts = (uPairs g).card ∧
    (dsaturColoring g s).totalConflicts = (uPairs g).card := by
  constructor
  · by_cases hg : g.isEmpty
    · have hnil : g = [] := List.isEmpty_iff.mp hg
      subst hnil
      simp [greedyColoring, uPairs]
    · simp only [greedyColoring, if_neg hg]
      show (conflictPairList (sortCourses (g.map resetCourse))).length = _
      rw [conflictPairList_length, sortCourses]
      rw [uPairs_perm (sortByLe_perm courseBefore (g.map resetCourse))]
      rw [uPairs_map_preserve resetCourse_preserves]
  · by_cases hg : g = []
    · subst hg
      simp [dsaturColoring, copyGraph, uPairs]
    · have hlen : ¬(copyGraph g).length = 0 := by
        simp [copyGraph, hg]
      simp only [dsaturColoring, if_neg hlen]
      show (conflictPairList ((copyGraph g).map _)).length = _
      rw [conflictPairList_length]
      rw [uPairs_map_preserve (dsaturApply_preserves _), copyGraph]
      rw [uPairs_map_preserve copyCourse_preserves]

/-- C7 (witness): the pair-count theorem applied to the worked scenario. -/
theorem totalConflicts_unordered_pairs_witness :
    (greedyColoring demoGraph (some demoStudents)).totalConflicts =
        (uPairs demoGraph).card ∧
      (dsaturColoring demoGraph (some demoStudents)).totalConflicts =
        (uPairs demoGraph).card :=
  totalConflicts_unordered_pairs demoGraph (some demoStudents) (by decide)

/-! ## Greedy placement machinery -/

theorem slotOk_iff (c : Course) (m : List String) :
    slotOk c m = true ↔ ∀ x ∈ m, x ∉ c.conflicts := by
  unfold slotOk
  simp

theorem placeCourse_flatten (c : Course) (ss : List (List String)) :
    (placeCourse c ss).flatten.Perm (c.name :: ss.flatten) := by
  induction ss with
  | nil => exact List.Perm.refl _
  | cons m rest ih =>
    rw [placeCourse]
    by_cases h : slotOk c m
    · rw [if_pos h]
      simp only [List.flatten_cons, List.append_assoc, List.singleton_append]
      exact List.perm_middle
    · rw [if_neg h]
      simp only [List.flatten_cons]
      exact ((ih.append_left m)).trans List.perm_middle

theorem foldl_place_flatten (l : List Course) :
    ∀ ss : List (List String),
      (l.foldl (fun ss c => placeCourse c ss) ss).flatten.Perm
        (ss.flatten ++ l.map (fun c => c.name)) := by
  induction l with
  | nil => intro ss; simp
  | cons c l ih =>
    intro ss
    rw [List.foldl_cons]
    refine (ih _).trans ?_
    refine (((placeCourse_flatten c ss).append_right _).trans ?_)
    simp only [List.cons_append, List.map_cons]
    exact List.perm_middle.symm

theorem assignSlots_flatten (l : List Course) :
    (assignSlots l).flatten.Perm (l.map (fun c => c.name)) := by
  have h := foldl_place_flatten l []
  simpa [assignSlots] using h

theorem placeCourse_inv {g : CourseGraph} {c : Course}
    (hs : GraphSymm g) (hname : c.name ∈ graphNames g)
    (hconf : conflictsOf g c.name = c.conflicts) :
    ∀ {ss : List (List String)}, SlotsInv g ss →
      SlotsInv g (placeCourse c ss) := by
  intro ss
  induction ss with
  | nil =>
    intro _ m hm
    rw [placeCourse] at hm
    rcases List.mem_singleton.mp hm with rfl
    constructor
    · intro x hx
      rcases List.mem_singleton.mp hx with rfl
      exact hname
    · exact List.pairwise_singleton _ _
  | cons m rest ih =>
    intro hinv
    rw [placeCourse]
    have hm := hinv m (List.mem_cons_self _ _)
    have hrest : SlotsInv g rest := fun m2 hm2 =>
      hinv m2 (List.mem_cons_of_mem _ hm2)
    by_cases h : slotOk c m
    · rw [if_pos h]
      intro m2 hm2
      rcases List.mem_cons.mp hm2 with rfl | hm2
      · constructor
        · intro x hx
          rcases List.mem_append.mp hx with hx | hx
          · exact hm.1 x hx
          · rcases List.mem_singleton.mp hx with rfl
            exact hname
        · rw [List.pairwise_append]
          refine ⟨hm.2, List.pairwise_singleton _ _, ?_⟩
          intro a ha b hb
          rcases List.mem_singleton.mp hb with rfl
          have hac : a ∉ c.conflicts := (slotOk_iff c m).mp h a ha
          rw [← hconf] at hac
          constructor
          · exact fun hmem =>
              hac ((hs a (hm.1 a ha) c.name hname).mp hmem)
          · exact hac
      · exact hrest m2 hm2
    · rw [if_neg h]
      intro m2 hm2
      rcases List.mem_cons.mp hm2 with rfl | hm2
      · exact hm
      · exact ih hrest m2 hm2

theorem foldl_place_inv {g : CourseGraph} (hs : GraphSymm g)
    (l : List Course)
    (hl : ∀ c ∈ l, c.name ∈ graphNames g ∧
      conflictsOf g c.name = c.conflicts) :
    ∀ ss, SlotsInv g ss →
      SlotsInv g (l.foldl (fun ss c => placeCourse c ss) ss) := by
  induction l with
  | nil => intro ss h; exact h
  | cons c l ih =>
    intro ss h
    rw [List.foldl_cons]
    have hc := hl c (List.mem_cons_self _ _)
    exact ih (fun d hd => hl d (List.mem_cons_of_mem _ hd)) _
      (placeCourse_inv hs hc.1 hc.2 h)

theorem sorted_courses_prop {g : CourseGraph}
    (hnd : (graphNames g).Nodup) :
    ∀ c ∈ sortCourses (g.map resetCourse),
      c.name ∈ graphNames g ∧ conflictsOf g c.name = c.conflicts := by
  intro c hc
  have hc2 : c ∈ g.map resetCourse :=
    (sortByLe_perm courseBefore (g.map resetCourse)).mem_iff.mp hc
  rcases List.mem_map.mp hc2 with ⟨d, hd, rfl⟩
  constructor
  · show d.name ∈ graphNames g
    exact mem_graphNames_of_mem hd
  · show conflictsOf g d.name = d.conflicts
    exact conflictsOf_of_mem hnd hd

theorem assignSlots_inv {g : CourseGraph} (hs : GraphSymm g)
    (hnd : (graphNames g).Nodup) :
    SlotsInv g (assignSlots (sortCourses (g.map resetCourse))) :=
  foldl_place_inv hs _ (sorted_courses_prop hnd) []
    (fun m hm => absurd hm (List.not_mem_nil m))

theorem noPairConflict_of_forall (g : CourseGraph) (a : String) :
    ∀ rest : List String,
      (∀ b ∈ rest, b ∉ conflictsOf g a ∧ a ∉ conflictsOf g b) →
      noPairConflict g a rest = true := by
  intro rest
  induction rest with
  | nil => intro _; rfl
  | cons b rest ih =>
    intro h
    have hb := h b (List.mem_cons_self _ _)
    rw [noPairConflict]
    simp only [Bool.and_eq_true, Bool.not_eq_true']
    refine ⟨⟨?_, ?_⟩, ih (fun x hx => h x (List.mem_cons_of_mem _ hx))⟩
    · simp only [List.contains, List.elem_eq_mem, decide_eq_false_iff_not]
      exact hb.1
    · simp only [List.contains, List.elem_eq_mem, decide_eq_false_iff_not]
      exact hb.2

theorem slotValid_of_pairwise {g : CourseGraph} {m : List String}
    (h : m.Pairwise
      (fun a b => b ∉ conflictsOf g a ∧ a ∉ conflictsOf g b)) :
    slotValid g m = true := by
  induction m with
  | nil => rfl
  | cons a rest ih =>
    rcases List.pairwise_cons.mp h with ⟨ha, hrest⟩
    rw [slotValid]
    simp only [Bool.and_eq_true]
    exact ⟨noPairConflict_of_forall g a rest ha, ih hrest⟩

theorem noPairConflict_congr {G H : CourseGraph}
    (h : ∀ n, conflictsOf G n = conflictsOf H n) (a : String) :
    ∀ m, noPairConflict G a m = noPairConflict H a m := by
  intro m
  induction m with
  | nil => rfl
  | cons b m ih =>
    rw [noPairConflict, noPairConflict, h a, h b, ih]

theorem slotValid_congr {G H : CourseGraph}
    (h : ∀ n, conflictsOf G n = conflictsOf H n) :
    ∀ m, slotValid G m = slotValid H m := by
  intro m
  induction m with
  | nil => rfl
  | cons a m ih =>
    rw [slotValid, slotValid, noPairConflict_congr h, ih]

theorem mem_toSlotPairsFrom {ss : List (List String)}
    {p : Nat × List String} :
    ∀ {k}, p ∈ toSlotPairsFrom k ss → p.2 ∈ ss := by
  induction ss with
  | nil => intro k h; cases h
  | cons m rest ih =>
    intro k h
    rw [toSlotPairsFrom] at h
    rcases List.mem_cons.mp h with rfl | h
    · exact List.mem_cons_self _ _
    · exact List.mem_cons_of_mem _ (ih h)

theorem conflictsOf_greedy_courses (g : CourseGraph)
    (ss : List (List String)) (n : String) :
    conflictsOf ((g.map resetCourse).map (applySlots ss)) n =
      conflictsOf g n := by
  rw [conflictsOf_map_preserve (applySlots_preserves ss),
    conflictsOf_map_preserve resetCourse_preserves]

theorem greedy_verify_true {g : CourseGraph} (hnd : (graphNames g).Nodup)
    (hs : GraphSymm g) (s : Option (List Student)) :
    verifySolution (greedyColoring g s).courses
      (greedyColoring g s).slots = true := by
  by_cases hg : g.isEmpty
  · simp [greedyColoring, hg, verifySolution]
  · simp only [greedyColoring, if_neg hg]
    show verifySolution ((g.map resetCourse).map (applySlots _))
      (toSlotPairs (assignSlots (sortCourses (g.map resetCourse)))) = true
    rw [verifySolution, List.all_eq_true]
    intro p hp
    have hmem : p.2 ∈ assignSlots (sortCourses (g.map resetCourse)) :=
      mem_toSlotPairsFrom hp
    have hinv := assignSlots_inv hs hnd p.2 hmem
    rw [slotValid_congr (conflictsOf_greedy_courses g _)]
    exact slotValid_of_pairwise hinv.2

theorem slotOfName_ge_one {n : String} :
    ∀ {ss : List (List String)} {s : Nat},
      slotOfName ss n = some s → 1 ≤ s := by
  intro ss
  induction ss with
  | nil => intro s h; cases h
  | cons m rest ih =>
    intro s h
    rw [slotOfName] at h
    by_cases hm : n ∈ m
    · rw [if_pos hm] at h
      cases h
      exact le_refl 1
    · rw [if_neg hm] at h
      rcases Option.map_eq_some'.mp h with ⟨t, _, rfl⟩
      exact Nat.le_add_left 1 t

theorem slotOfName_le_length {n : String} :
    ∀ {ss : List (List String)} {s : Nat},
      slotOfName ss n = some s → s ≤ ss.length := by
  intro ss
  induction ss with
  | nil => intro s h; cases h
  | cons m rest ih =>
    intro s h
    rw [slotOfName] at h
    by_cases hm : n ∈ m
    · rw [if_pos hm] at h
      cases h
      simp
    · rw [if_neg hm] at h
      rcases Option.map_eq_some'.mp h with ⟨t, ht, rfl⟩
      rw [List.length_cons]
      exact Nat.add_le_add_right (ih ht) 1

theorem slotOfName_isSome_of_mem_flatten {n : String} :
    ∀ {ss : List (List String)}, n ∈ ss.flatten →
      (slotOfName ss n).isSome := by
  intro ss
  induction ss with
  | nil => intro h; cases h
  | cons m rest ih =>
    intro h
    rw [slotOfName]
    by_cases hm : n ∈ m
    · rw [if_pos hm]; rfl
    · rw [if_neg hm]
      rw [List.flatten_cons] at h
      rcases List.mem_append.mp h with h | h
      · exact absurd h hm
      · cases hrec : slotOfName rest n with
        | none => rw [hrec] at ih; exact absurd (ih h) (by simp)
        | some t => rfl

theorem slotOfName_mem_flatten {n : String} :
    ∀ {ss : List (List String)} {s : Nat}, slotOfName ss n = some s →
      n ∈ ss.flatten := by
  intro ss
  induction ss with
  | nil => intro s h; cases h
  | cons m rest ih =>
    intro s h
    rw [slotOfName] at h
    rw [List.flatten_cons, List.mem_append]
    by_cases hm : n ∈ m
    · exact Or.inl hm
    · rw [if_neg hm] at h
      rcases Option.map_eq_some'.mp h with ⟨t, ht, rfl⟩
      exact Or.inr (ih ht)

theorem slotOfName_mem_pairsFrom {n : String} :
    ∀ {ss : List (List String)} {s : Nat},
      slotOfName ss n = some s → ∀ k,
      ∃ m, (k + (s - 1), m) ∈ toSlotPairsFrom k ss ∧ n ∈ m := by
  intro ss
  induction ss with
  | nil => intro s h; cases h
  | cons m rest ih =>
    intro s h k
    rw [slotOfName] at h
    by_cases hm : n ∈ m
    · rw [if_pos hm] at h
      cases h
      exact ⟨m, by rw [toSlotPairsFrom]; exact List.mem_cons_self _ _, hm⟩
    · rw [if_neg hm] at h
      rcases Option.map_eq_some'.mp h with ⟨t, ht, rfl⟩
      have ht1 := slotOfName_ge_one ht
      rcases ih ht (k + 1) with ⟨m2, hm2, hn2⟩
      refine ⟨m2, ?_, hn2⟩
      rw [toSlotPairsFrom]
      have harith : k + 1 + (t - 1) = k + (t + 1 - 1) := by omega
      rw [harith] at hm2
      exact List.mem_cons_of_mem _ hm2

theorem slotOfName_mem_pairs {n : String} {ss : List (List String)}
    {s : Nat} (h : slotOfName ss n = some s) :
    ∃ m, (s, m) ∈ toSlotPairs ss ∧ n ∈ m := by
  have h1 := slotOfName_ge_one h
  rcases slotOfName_mem_pairsFrom h 1 with ⟨m, hm, hn⟩
  have harith : 1 + (s - 1) = s := by omega
  rw [harith] at hm
  exact ⟨m, hm, hn⟩

theorem slotOfName_same {a b : String} :
    ∀ {ss : List (List String)} {s : Nat},
      slotOfName ss a = some s → slotOfName ss b = some s →
      ∃ m ∈ ss, a ∈ m ∧ b ∈ m := by
  intro ss
  induction ss with
  | nil => intro s h; cases h
  | cons m rest ih =>
    intro s ha hb
    rw [slotOfName] at ha hb
    by_cases hma : a ∈ m
    · rw [if_pos hma] at ha
      by_cases hmb : b ∈ m
      · exact ⟨m, List.mem_cons_self _ _, hma, hmb⟩
      · rw [if_neg hmb] at hb
        cases ha
        rcases Option.map_eq_some'.mp hb with ⟨t, ht, hteq⟩
        have := slotOfName_ge_one ht
        omega
    · rw [if_neg hma] at ha
      rcases Option.map_eq_some'.mp ha with ⟨t, ht, rfl⟩
      by_cases hmb : b ∈ m
      · rw [if_pos hmb] at hb
        have := slotOfName_ge_one ht
        cases hb
        omega
      · rw [if_neg hmb] at hb
        rcases Option.map_eq_some'.mp hb with ⟨u, hu, huq⟩
        have htu : u = t := by omega
        subst htu
        rcases ih ht hu with ⟨m2, hm2, hmem⟩
        exact ⟨m2, List.mem_cons_of_mem _ hm2, hmem⟩

theorem toSlotPairsFrom_map_fst (ss : List (List String)) :
    ∀ k, (toSlotPairsFrom k ss).map Prod.fst = List.range' k ss.length := by
  induction ss with
  | nil => intro k; rfl
  | cons m rest ih =>
    intro k
    rw [toSlotPairsFrom, List.map_cons, ih, List.length_cons,
      List.range'_succ]

theorem toSlotPairsFrom_map_snd (ss : List (List String)) :
    ∀ k, (toSlotPairsFrom k ss).map Prod.snd = ss := by
  induction ss with
  | nil => intro k; rfl
  | cons m rest ih =>
    intro k
    rw [toSlotPairsFrom, List.map_cons, ih]

theorem greedy_names_perm (g : CourseGraph) :
    (assignSlots (sortCourses (g.map resetCourse))).flatten.Perm
      (graphNames g) := by
  refine (assignSlots_flatten _).trans ?_
  refine ((sortByLe_perm courseBefore (g.map resetCourse)).map _).trans ?_
  rw [List.map_map]
  show (g.map (fun c => (resetCourse c).name)).Perm (graphNames g)
  rw [show (fun c => (resetCourse c).name) = (fun c : Course => c.name)
    from rfl]
  exact List.Perm.refl _

theorem range'_one_toFinset (n : Nat) :
    (List.range' 1 n).toFinset = Finset.Icc 1 n := by
  ext x
  rw [List.mem_toFinset, List.mem_range'_1, Finset.mem_Icc]
  omega

theorem greedy_courses_elem {g : CourseGraph} {s : Option (List Student)}
    (hg : ¬g.isEmpty) {c : Course}
    (hc : c ∈ (greedyColoring g s).courses) :
    ∃ c0 ∈ g, c = applySlots
      (assignSlots (sortCourses (g.map resetCourse))) (resetCourse c0) := by
  simp only [greedyColoring, if_neg hg] at hc
  rcases List.mem_map.mp hc with ⟨d, hd, rfl⟩
  rcases List.mem_map.mp hd with ⟨c0, hc0, rfl⟩
  exact ⟨c0, hc0, rfl⟩

theorem greedy_slot_field {g : CourseGraph} {c0 : Course} (hc0 : c0 ∈ g) :
    ∃ s0, slotOfName (assignSlots (sortCourses (g.map resetCourse)))
        c0.name = some s0 ∧
      (applySlots (assignSlots (sortCourses (g.map resetCourse)))
        (resetCourse c0)).slot = some s0 := by
  have hmem : c0.name ∈
      (assignSlots (sortCourses (g.map resetCourse))).flatten :=
    (greedy_names_perm g).mem_iff.mpr (mem_graphNames_of_mem hc0)
  have hsome := slotOfName_isSome_of_mem_flatten hmem
  rcases Option.isSome_iff_exists.mp hsome with ⟨s0, hs0⟩
  refine ⟨s0, hs0, ?_⟩
  unfold applySlots
  have hname : (resetCourse c0).name = c0.name := rfl
  rw [hname, hs0]

theorem greedy_partition_raw {g : CourseGraph}
    (hnd : (graphNames g).Nodup) :
    ((toSlotPairs (assignSlots (sortCourses
        (g.map resetCourse)))).map Prod.fst).Nodup ∧
    ((toSlotPairs (assignSlots (sortCourses
        (g.map resetCourse)))).map Prod.fst).toFinset =
      Finset.Icc 1 (assignSlots (sortCourses (g.map resetCourse))).length ∧
    ∀ c ∈ (g.map resetCourse).map (applySlots (assignSlots (sortCourses
        (g.map resetCourse)))),
      (((toSlotPairs (assignSlots (sortCourses
          (g.map resetCourse)))).map Prod.snd).flatten.count c.name = 1 ∧
        ∃ k m, (k, m) ∈ toSlotPairs (assignSlots (sortCourses
          (g.map resetCourse))) ∧ c.name ∈ m ∧ c.slot = some k) := by
  refine ⟨?_, ?_, ?_⟩
  · rw [toSlotPairs, toSlotPairsFrom_map_fst]
    exact List.nodup_range' _ _
  · rw [toSlotPairs, toSlotPairsFrom_map_fst, range'_one_toFinset]
  · intro c hc
    rcases List.mem_map.mp hc with ⟨d, hd, rfl⟩
    rcases List.mem_map.mp hd with ⟨c0, hc0, rfl⟩
    constructor
    · rw [toSlotPairs, toSlotPairsFrom_map_snd]
      rw [(applySlots_preserves _ _).1, (greedy_names_perm g).count_eq]
      exact List.count_eq_one_of_mem hnd (mem_graphNames_of_mem (c := c0) hc0)
    · rcases greedy_slot_field hc0 with ⟨s0, hs0, hslot⟩
      rcases slotOfName_mem_pairs hs0 with ⟨m, hm, hnm⟩
      refine ⟨s0, m, hm, ?_, hslot⟩
      rw [(applySlots_preserves _ _).1]
      exact hnm

theorem greedy_partition {g : CourseGraph} (hnd : (graphNames g).Nodup)
    (s : Option (List Student)) :
    SlotsPartitionOk (greedyColoring g s) := by
  by_cases hg : g.isEmpty
  · have hnil : g = [] := List.isEmpty_iff.mp hg
    subst hnil
    refine ⟨?_, ?_, ?_⟩
    · simp [greedyColoring]
    · simp [greedyColoring]
    · intro c hc
      simp [greedyColoring] at hc
  · have hraw := greedy_partition_raw hnd
    rw [SlotsPartitionOk]
    simp only [greedyColoring, if_neg hg]
    exact hraw

theorem greedy_clique_le {g : CourseGraph} (hnd : (graphNames g).Nodup)
    (hs : GraphSymm g) (s : Option (List Student)) (K : Finset String)
    (hKmem : ∀ a ∈ K, a ∈ graphNames g)
    (hKcl : ∀ a ∈ K, ∀ b ∈ K, a ≠ b → b ∈ conflictsOf g a) :
    K.card ≤ (greedyColoring g s).totalSlots := by
  by_cases hg : g.isEmpty
  · have hnil : g = [] := List.isEmpty_iff.mp hg
    subst hnil
    have hK : K = ∅ := by
      refine Finset.eq_empty_of_forall_not_mem (fun a ha => ?_)
      have := hKmem a ha
      simp [graphNames] at this
    rw [hK]
    simp
  · simp only [greedyColoring, if_neg hg]
    show K.card ≤ (assignSlots (sortCourses (g.map resetCourse))).length
    have hcard : (Finset.Icc 1
        (assignSlots (sortCourses (g.map resetCourse))).length).card =
        (assignSlots (sortCourses (g.map resetCourse))).length := by
      rw [Nat.card_Icc]
      omega
    refine le_trans (Finset.card_le_card_of_injOn
      (fun n => (slotOfName (assignSlots (sortCourses
        (g.map resetCourse))) n).getD 0) ?_ ?_) (le_of_eq hcard)
    · intro a ha
      have hsome := slotOfName_isSome_of_mem_flatten
        ((greedy_names_perm g).mem_iff.mpr (hKmem a ha))
      rcases Option.isSome_iff_exists.mp hsome with ⟨sa, hsa⟩
      show ((slotOfName (assignSlots (sortCourses
        (g.map resetCourse))) a).getD 0) ∈ Finset.Icc 1 _
      rw [hsa]
      simp only [Option.getD_some, Finset.mem_Icc]
      exact ⟨slotOfName_ge_one hsa, slotOfName_le_length hsa⟩
    · intro a ha b hb hf
      by_contra hne
      have ha2 : a ∈ K := ha
      have hb2 : b ∈ K := hb
      have hsomea := slotOfName_isSome_of_mem_flatten
        ((greedy_names_perm g).mem_iff.mpr (hKmem a ha2))
      have hsomeb := slotOfName_isSome_of_mem_flatten
        ((greedy_names_perm g).mem_iff.mpr (hKmem b hb2))
      rcases Option.isSome_iff_exists.mp hsomea with ⟨sa, hsa⟩
      rcases Option.isSome_iff_exists.mp hsomeb with ⟨sb, hsb⟩
      have hf2 : (slotOfName (assignSlots (sortCourses
          (g.map resetCourse))) a).getD 0 =
          (slotOfName (assignSlots (sortCourses
          (g.map resetCourse))) b).getD 0 := hf
      rw [hsa, hsb] at hf2
      simp only [Option.getD_some] at hf2
      subst hf2
      rcases slotOfName_same hsa hsb with ⟨m, hmss, ham, hbm⟩
      have hinv := assignSlots_inv hs hnd m hmss
      have hsymmR : Symmetric (fun a b : String =>
          b ∉ conflictsOf g a ∧ a ∉ conflictsOf g b) :=
        fun x y h => ⟨h.2, h.1⟩
      have hR := hinv.2.forall hsymmR ham hbm hne
      exact hR.1 (hKcl a ha2 b hb2 hne)

/-! ## DSATUR machinery -/

theorem lookupColor_eq_none_iff (A : List (String × Nat)) (n : String) :
    lookupColor A n = none ↔ n ∉ A.map Prod.fst := by
  unfold lookupColor
  rw [Option.map_eq_none', List.find?_eq_none]
  constructor
  · intro h hmem
    rcases List.mem_map.mp hmem with ⟨p, hp, rfl⟩
    exact absurd (by simp) (h p hp)
  · intro h p hp hbeq
    refine h ?_
    rcases p with ⟨pn, pc⟩
    have : pn = n := by simpa using hbeq
    subst this
    exact List.mem_map_of_mem _ hp

theorem lookupColor_mem {A : List (String × Nat)} {n : String} {c : Nat}
    (h : lookupColor A n = some c) : (n, c) ∈ A := by
  unfold lookupColor at h
  rcases Option.map_eq_some'.mp h with ⟨p, hp, rfl⟩
  have hmem := List.mem_of_find?_eq_some hp
  have hbeq := List.find?_some hp
  rcases p with ⟨pn, pc⟩
  have : pn = n := by simpa using hbeq
  subst this
  exact hmem

theorem lookupColor_of_mem_nodup :
    ∀ {A : List (String × Nat)} {n : String} {c : Nat},
      (A.map Prod.fst).Nodup → (n, c) ∈ A → lookupColor A n = some c := by
  intro A
  induction A with
  | nil => intro n c _ h; cases h
  | cons p A ih =>
    intro n c hnd h
    rcases List.mem_cons.mp h with rfl | h
    · unfold lookupColor
      rw [List.find?_cons_of_pos _ (by simp)]
      rfl
    · have hp : p.1 ≠ n := by
        intro he
        have : p.1 ∉ A.map Prod.fst := (List.nodup_cons.mp
          (by simpa using hnd)).1
        rw [he] at this
        exact this (List.mem_map_of_mem _ h)
      unfold lookupColor
      rw [List.find?_cons_of_neg _ (by simpa using hp)]
      exact ih (List.nodup_cons.mp (by simpa using hnd)).2 h

theorem lookupColor_append_some {A B : List (String × Nat)} {n : String}
    {c : Nat} (h : lookupColor A n = some c) :
    lookupColor (A ++ B) n = some c := by
  unfold lookupColor at h ⊢
  rw [List.find?_append]
  rcases Option.map_eq_some'.mp h with ⟨p, hp, rfl⟩
  rw [hp]
  rfl

theorem lookupColor_append_none {A B : List (String × Nat)} {n : String}
    (h : lookupColor A n = none) :
    lookupColor (A ++ B) n = lookupColor B n := by
  unfold lookupColor at h ⊢
  rw [List.find?_append]
  rcases Option.map_eq_none'.mp h with hfind
  rw [hfind]
  rfl

theorem lookupColor_single (v : String) (c : Nat) (n : String) :
    lookupColor [(v, c)] n = if n = v then some c else none := by
  unfold lookupColor
  by_cases h : n = v
  · subst h
    rw [List.find?_cons_of_pos _ (by simp), if_pos rfl]
    rfl
  · rw [List.find?_cons_of_neg _ (by simp [Ne.symm h]), if_neg h]
    rfl

theorem filter_length_mono {p q : α → Bool}
    (h : ∀ x, p x = true → q x = true) :
    ∀ l : List α, (l.filter p).length ≤ (l.filter q).length := by
  intro l
  induction l with
  | nil => exact le_refl 0
  | cons a l ih =>
    rw [List.filter_cons, List.filter_cons]
    by_cases hp : p a
    · rw [if_pos hp, if_pos (h a hp)]
      exact Nat.succ_le_succ ih
    · rw [if_neg hp]
      by_cases hq : q a
      · rw [if_pos hq]
        exact le_trans ih (Nat.le_succ _)
      · rw [if_neg hq]
        exact ih

theorem filter_ge_succ_lt {c : Nat} :
    ∀ {l : List Nat}, c ∈ l →
      (l.filter (fun k => decide (c + 1 ≤ k))).length <
        (l.filter (fun k => decide (c ≤ k))).length := by
  intro l hc
  induction l with
  | nil => cases hc
  | cons a l ih =>
    rw [List.filter_cons, List.filter_cons]
    rcases List.mem_cons.mp hc with rfl | hc
    · rw [if_neg (by simp), if_pos (by simp)]
      exact Nat.lt_succ_of_le
        (filter_length_mono (fun x hx => by
          simp only [decide_eq_true_eq] at hx ⊢
          omega) l)
    · by_cases h1 : c + 1 ≤ a
      · rw [if_pos (by simpa using h1), if_pos (by
          simp only [decide_eq_true_eq]
          omega)]
        exact Nat.succ_lt_succ (ih hc)
      · rw [if_neg (by simpa using h1)]
        by_cases h2 : c ≤ a
        · rw [if_pos (by simpa using h2)]
          exact Nat.lt_succ_of_lt (ih hc)
        · rw [if_neg (by simpa using h2)]
          exact ih hc

theorem firstFreeFrom_spec (used : List Nat) :
    ∀ (fuel c : Nat),
      (used.filter (fun k => decide (c ≤ k))).length < fuel →
      firstFreeFrom used c fuel ∉ used ∧
        c ≤ firstFreeFrom used c fuel ∧
        ∀ k, c ≤ k → k < firstFreeFrom used c fuel → k ∈ used := by
  intro fuel
  induction fuel with
  | zero => intro c h; exact absurd h (Nat.not_lt_zero _)
  | succ f ih =>
    intro c h
    rw [firstFreeFrom]
    by_cases hc : c ∈ used
    · rw [if_pos hc]
      have hlt := filter_ge_succ_lt hc
      have hspec := ih (c + 1) (by omega)
      refine ⟨hspec.1, le_trans (Nat.le_succ c) hspec.2.1, ?_⟩
      intro k hk1 hk2
      rcases Nat.eq_or_lt_of_le hk1 with rfl | hk3
      · exact hc
      · exact hspec.2.2 k hk3 hk2
    · rw [if_neg hc]
      exact ⟨hc, le_refl c, fun k hk1 hk2 => absurd hk1 (by omega)⟩

theorem firstFree_spec (used : List Nat) :
    firstFree used ∉ used ∧ 1 ≤ firstFree used ∧
      ∀ k, 1 ≤ k → k < firstFree used → k ∈ used := by
  refine firstFreeFrom_spec used (used.length + 1) 1 ?_
  exact Nat.lt_succ_of_le (List.length_filter_le _ _)

theorem mem_usedColors_iff (g : CourseGraph) (A : List (String × Nat))
    (v : String) (c : Nat) :
    c ∈ usedColors g A v ↔
      ∃ nb ∈ conflictsOf g v, lookupColor A nb = some c := by
  unfold usedColors
  rw [List.mem_filterMap]

theorem dsaturPick_mem {g : CourseGraph} {A : List (String × Nat)}
    {cand : List String} {v : String} (h : dsaturPick g A cand = some v) :
    v ∈ cand := by
  unfold dsaturPick at h
  have hmem : v ∈ sortByLe (dsaturLe g A) cand := by
    cases hl : sortByLe (dsaturLe g A) cand with
    | nil => rw [hl] at h; cases h
    | cons a l =>
      rw [hl] at h
      cases h
      exact List.mem_cons_self _ _
  exact (sortByLe_perm (dsaturLe g A) cand).mem_iff.mp hmem

theorem dsaturPick_none {g : CourseGraph} {A : List (String × Nat)}
    {cand : List String} (h : dsaturPick g A cand = none) : cand = [] := by
  unfold dsaturPick at h
  cases hl : sortByLe (dsaturLe g A) cand with
  | nil =>
    have := sortByLe_perm (dsaturLe g A) cand
    rw [hl] at this
    exact this.symm.eq_nil
  | cons a l => rw [hl] at h; cases h

theorem dsatInv_nil (g : CourseGraph) (names : List String) :
    DsatInv g names [] := by
  refine ⟨List.nodup_nil, ?_, List.Pairwise.nil, ?_⟩
  · intro p hp; cases hp
  · intro p hp; cases hp

theorem dsatInv_step {g : CourseGraph} {names : List String}
    {A : List (String × Nat)} {v : String} (hinv : DsatInv g names A)
    (hv : v ∈ names) (hvA : lookupColor A v = none) :
    DsatInv g names (A ++ [(v, firstFree (usedColors g A v))]) := by
  rcases hinv with ⟨hnd, hnames, hpw, hcontig⟩
  have hvkeys : v ∉ A.map Prod.fst := (lookupColor_eq_none_iff A v).mp hvA
  have hfree := firstFree_spec (usedColors g A v)
  refine ⟨?_, ?_, ?_, ?_⟩
  · rw [List.map_append]
    rw [List.nodup_append]
    refine ⟨hnd, List.nodup_singleton _, ?_⟩
    intro x hx hx2
    rcases List.mem_singleton.mp hx2 with rfl
    exact hvkeys hx
  · intro p hp
    rcases List.mem_append.mp hp with hp | hp
    · exact hnames p hp
    · rcases List.mem_singleton.mp hp with rfl
      exact hv
  · rw [List.pairwise_append]
    refine ⟨hpw, List.pairwise_singleton _ _, ?_⟩
    intro p hp q hq
    rcases List.mem_singleton.mp hq with rfl
    intro hconf
    have hlook : lookupColor A p.1 = some p.2 := by
      have : (p.1, p.2) ∈ A := by
        rcases p with ⟨pn, pc⟩
        exact hp
      exact lookupColor_of_mem_nodup hnd this
    have hused : p.2 ∈ usedColors g A v := by
      rw [mem_usedColors_iff]
      exact ⟨p.1, hconf, hlook⟩
    intro he
    rw [he] at hused
    exact hfree.1 hused
  · intro p hp
    rcases List.mem_append.mp hp with hp | hp
    · rcases hcontig p hp with ⟨h1, h2⟩
      refine ⟨h1, fun k hk1 hk2 => ?_⟩
      rcases h2 k hk1 hk2 with ⟨u, hu⟩
      exact ⟨u, List.mem_append_left _ hu⟩
    · rcases List.mem_singleton.mp hp with rfl
      refine ⟨hfree.2.1, fun k hk1 hk2 => ?_⟩
      have hk3 := hfree.2.2 k hk1 hk2
      rw [mem_usedColors_iff] at hk3
      rcases hk3 with ⟨nb, _, hnb⟩
      exact ⟨nb, List.mem_append_left _ (lookupColor_mem hnb)⟩

theorem dsaturLoop_inv (g : CourseGraph) (names : List String) :
    ∀ (fuel : Nat) (A : List (String × Nat)), DsatInv g names A →
      DsatInv g names (dsaturLoop g names fuel A) := by
  intro fuel
  induction fuel with
  | zero => intro A h; exact h
  | succ f ih =>
    intro A h
    rw [dsaturLoop]
    cases hpick : dsaturPick g A
        (names.filter (fun n => (lookupColor A n).isNone)) with
    | none => exact h
    | some v =>
      have hv := dsaturPick_mem hpick
      rcases List.mem_filter.mp hv with ⟨hvnames, hvnone⟩
      exact ih _ (dsatInv_step h hvnames (Option.isNone_iff_eq_none.mp
        (by simpa using hvnone)))

theorem filter_ne_length_lt {l : List String} {v : String} (hv : v ∈ l) :
    (l.filter (fun n => !(n == v))).length < l.length := by
  induction l with
  | nil => cases hv
  | cons a l ih =>
    rw [List.filter_cons]
    by_cases hav : a = v
    · subst hav
      rw [if_neg (by simp)]
      exact Nat.lt_succ_of_le (List.length_filter_le _ _)
    · rw [if_pos (by simp [hav])]
      rcases List.mem_cons.mp hv with rfl | hv2
      · exact absurd rfl hav
      · exact Nat.succ_lt_succ (ih hv2)

theorem dsaturLoop_complete (g : CourseGraph) (names : List String) :
    ∀ (fuel : Nat) (A : List (String × Nat)),
      (names.filter (fun n => (lookupColor A n).isNone)).length ≤ fuel →
      ∀ n ∈ names, (lookupColor (dsaturLoop g names fuel A) n).isSome := by
  intro fuel
  induction fuel with
  | zero =>
    intro A h n hn
    have hempty : names.filter (fun n => (lookupColor A n).isNone) = [] :=
      List.length_eq_zero.mp (Nat.le_zero.mp h)
    rw [dsaturLoop]
    cases hlook : lookupColor A n with
    | some c => rfl
    | none =>
      exfalso
      have hmem : n ∈ names.filter (fun n => (lookupColor A n).isNone) :=
        List.mem_filter.mpr ⟨hn, by rw [hlook]; rfl⟩
      rw [hempty] at hmem
      cases hmem
  | succ f ih =>
    intro A h n hn
    rw [dsaturLoop]
    cases hpick : dsaturPick g A
        (names.filter (fun n => (lookupColor A n).isNone)) with
    | none =>
      have hempty : names.filter (fun n => (lookupColor A n).isNone) = [] :=
        dsaturPick_none hpick
      cases hlook : lookupColor A n with
      | some c => rfl
      | none =>
        exfalso
        have hmem : n ∈ names.filter (fun n => (lookupColor A n).isNone) :=
          List.mem_filter.mpr ⟨hn, by rw [hlook]; rfl⟩
        rw [hempty] at hmem
        cases hmem
    | some v =>
      refine ih _ ?_ n hn
      have hv := dsaturPick_mem hpick
      rcases List.mem_filter.mp hv with ⟨hvn, hvnone2⟩
      have hfeq : names.filter (fun x =>
          (lookupColor (A ++ [(v, firstFree (usedColors g A v))]) x).isNone)
          = (names.filter (fun x => (lookupColor A x).isNone)).filter
            (fun x => !(x == v)) := by
        rw [List.filter_filter]
        refine List.filter_congr ?_
        intro x _
        cases hlx : lookupColor A x with
        | some c =>
          rw [lookupColor_append_some hlx]
          simp [hlx]
        | none =>
          rw [lookupColor_append_none hlx, lookupColor_single]
          by_cases hxv : x = v
          · subst hxv
            simp [hlx]
          · simp [hxv, hlx]
      rw [hfeq]
      have hlt := filter_ne_length_lt hv
      omega

theorem slotsAdd_map_fst (slots : List (Nat × List String)) (k : Nat)
    (n : String) :
    (slotsAdd slots k n).map Prod.fst =
      if k ∈ slots.map Prod.fst then slots.map Prod.fst
      else slots.map Prod.fst ++ [k] := by
  unfold slotsAdd
  by_cases h : slots.any (fun p => p.1 == k)
  · rw [if_pos h, if_pos]
    · rw [List.map_map]
      refine List.map_congr_left ?_
      intro p _
      by_cases hp : p.1 = k
      · simp [hp]
      · simp [hp]
    · rcases List.any_eq_true.mp h with ⟨p, hp, hbeq⟩
      have : p.1 = k := by simpa using hbeq
      rw [← this]
      exact List.mem_map_of_mem _ hp
  · rw [if_neg h, if_neg]
    · rw [List.map_append]
      rfl
    · intro hmem
      rcases List.mem_map.mp hmem with ⟨p, hp, hpk⟩
      exact h (List.any_eq_true.mpr ⟨p, hp, by simp [hpk]⟩)

theorem slotsAdd_keys_mem (slots : List (Nat × List String)) (k : Nat)
    (n : String) (j : Nat) :
    j ∈ (slotsAdd slots k n).map Prod.fst ↔
      j ∈ slots.map Prod.fst ∨ j = k := by
  rw [slotsAdd_map_fst]
  by_cases h : k ∈ slots.map Prod.fst
  · rw [if_pos h]
    constructor
    · exact Or.inl
    · rintro (hj | rfl)
      · exact hj
      · exact h
  · rw [if_neg h, List.mem_append, List.mem_singleton]

theorem slotsAdd_mem {slots : List (Nat × List String)} {k : Nat}
    {n : String} {q : Nat × List String} (hq : q ∈ slotsAdd slots k n) :
    q ∈ slots ∨ (q.1 = k ∧ (q.2 = [n] ∨
      ∃ m, (k, m) ∈ slots ∧ q.2 = m ++ [n])) := by
  unfold slotsAdd at hq
  by_cases h : slots.any (fun p => p.1 == k)
  · rw [if_pos h] at hq
    rcases List.mem_map.mp hq with ⟨p, hp, rfl⟩
    by_cases hpk : p.1 = k
    · rw [if_pos (by simpa using hpk)]
      right
      refine ⟨hpk, Or.inr ⟨p.2, ?_, rfl⟩⟩
      rw [← hpk]
      exact hp
    · rw [if_neg (by simpa using hpk)]
      exact Or.inl hp
  · rw [if_neg h] at hq
    rcases List.mem_append.mp hq with hq | hq
    · exact Or.inl hq
    · rcases List.mem_singleton.mp hq with rfl
      exact Or.inr ⟨rfl, Or.inl rfl⟩

theorem slotsAdd_flatten {slots : List (Nat × List String)}
    (hnd : (slots.map Prod.fst).Nodup) (k : Nat) (n : String) :
    ((slotsAdd slots k n).map Prod.snd).flatten.Perm
      ((slots.map Prod.snd).flatten ++ [n]) := by
  induction slots with
  | nil =>
    unfold slotsAdd
    simp
  | cons p slots ih =>
    unfold slotsAdd
    by_cases hpk : p.1 = k
    · rw [if_pos (List.any_eq_true.mpr
        ⟨p, List.mem_cons_self _ _, by simp [hpk]⟩)]
      have hknotin : ∀ q ∈ slots, ¬(q.1 == k) = true := by
        intro q hq hbeq
        have hqk : q.1 = k := by simpa using hbeq
        have hx := (List.nodup_cons.mp hnd).1
        rw [hpk] at hx
        rw [← hqk] at hx
        exact hx (List.mem_map_of_mem _ hq)
      have hrest : slots.map (fun q =>
          if q.1 == k then (q.1, q.2 ++ [n]) else q) = slots := by
        have hmap : slots.map (fun q =>
            if q.1 == k then (q.1, q.2 ++ [n]) else q) = slots.map id :=
          List.map_congr_left (fun q hq => by
            rw [if_neg (hknotin q hq)]
            rfl)
        rw [hmap, List.map_id]
      rw [List.map_cons, if_pos (by simpa using hpk), hrest]
      simp only [List.map_cons, List.flatten_cons]
      show (((p.2 ++ [n]) ++ (slots.map Prod.snd).flatten)).Perm
        ((p.2 ++ (slots.map Prod.snd).flatten) ++ [n])
      rw [List.append_assoc, List.append_assoc]
      exact List.perm_append_comm.append_left p.2
    · by_cases hany : slots.any (fun q => q.1 == k)
      · rw [if_pos (by
          rw [List.any_cons, Bool.or_eq_true]
          exact Or.inr hany)]
        rw [List.map_cons, if_neg (by simpa using hpk)]
        have ihx := ih (List.nodup_cons.mp hnd).2
        unfold slotsAdd at ihx
        rw [if_pos hany] at ihx
        simp only [List.map_cons, List.flatten_cons]
        refine (ihx.append_left p.2).trans ?_
        rw [List.append_assoc]
      · rw [if_neg (by
          rw [List.any_cons, Bool.or_eq_true]
          rintro (hh | hh)
          · exact hpk (by simpa using hh)
          · exact absurd hh (by simpa using hany))]
        simp

theorem slotsAccOk_step {A : List (String × Nat)} {processed : List String}
    {slots : List (Nat × List String)} {n : String}
    (h : SlotsAccOk A processed slots) :
    SlotsAccOk A (processed ++ [n])
      (slotsAdd slots ((lookupColor A n).getD 1) n) := by
  rcases h with ⟨hnd, hmem, hperm, hkeys⟩
  refine ⟨?_, ?_, ?_, ?_⟩
  · rw [slotsAdd_map_fst]
    by_cases hk : (lookupColor A n).getD 1 ∈ slots.map Prod.fst
    · rw [if_pos hk]
      exact hnd
    · rw [if_neg hk]
      rw [List.nodup_append]
      exact ⟨hnd, List.nodup_singleton _, by
        intro x hx hx2
        rcases List.mem_singleton.mp hx2 with rfl
        exact hk hx⟩
  · intro q hq x hx
    rcases slotsAdd_mem hq with hq2 | ⟨hq1, hq2⟩
    · exact hmem q hq2 x hx
    · rcases hq2 with hq2 | ⟨m, hm, hq2⟩
      · rw [hq2] at hx
        rcases List.mem_singleton.mp hx with rfl
        rw [hq1]
      · rw [hq2] at hx
        rcases List.mem_append.mp hx with hx | hx
        · rw [hq1]
          have := hmem (_, m) hm x hx
          simpa using this
        · rcases List.mem_singleton.mp hx with rfl
          rw [hq1]
  · refine (slotsAdd_flatten hnd _ n).trans ?_
    exact hperm.append_right [n]
  · intro j
    rw [slotsAdd_keys_mem, hkeys j]
    constructor
    · rintro (⟨n2, hn2, hj⟩ | rfl)
      · exact ⟨n2, List.mem_append_left _ hn2, hj⟩
      · exact ⟨n, List.mem_append_right _ (List.mem_singleton.mpr rfl), rfl⟩
    · rintro ⟨n2, hn2, hj⟩
      rcases List.mem_append.mp hn2 with hn2 | hn2
      · exact Or.inl ⟨n2, hn2, hj⟩
      · rcases List.mem_singleton.mp hn2 with rfl
        exact Or.inr hj.symm

theorem buildDsaturSlots_inv (A : List (String × Nat)) :
    ∀ (ns processed : List String) (slots : List (Nat × List String)),
      SlotsAccOk A processed slots →
      SlotsAccOk A (processed ++ ns)
        (ns.foldl (fun slots n =>
          slotsAdd slots ((lookupColor A n).getD 1) n) slots) := by
  intro ns
  induction ns with
  | nil =>
    intro processed slots h
    simpa using h
  | cons n ns ih =>
    intro processed slots h
    rw [List.foldl_cons]
    have hstep := slotsAccOk_step (n := n) h
    have hx := ih (processed ++ [n]) _ hstep
    rw [List.append_assoc] at hx
    simpa using hx

theorem buildDsaturSlots_ok (names : List String)
    (A : List (String × Nat)) :
    SlotsAccOk A names (buildDsaturSlots names A) := by
  have hbase : SlotsAccOk A [] [] := by
    refine ⟨List.nodup_nil, ?_, ?_, ?_⟩
    · intro p hp
      cases hp
    · simp
    · intro j
      simp
  have h := buildDsaturSlots_inv A names [] [] hbase
  simpa [buildDsaturSlots] using h

theorem keys_contiguous {K : List Nat} (hnd : K.Nodup)
    (h1 : ∀ k ∈ K, 1 ≤ k)
    (hdc : ∀ c ∈ K, ∀ k, 1 ≤ k → k < c → k ∈ K) :
    K.toFinset = Finset.Icc 1 K.length := by
  rcases Kempty : K with _ | ⟨a, K2⟩
  · simp
  · rw [← Kempty]
    have hne : K.toFinset.Nonempty := by
      rw [Kempty]
      exact ⟨a, by simp⟩
    have hcard : K.toFinset.card = K.length :=
      List.toFinset_card_of_nodup hnd
    have hM := K.toFinset.max'_mem hne
    have hsub1 : K.toFinset ⊆ Finset.Icc 1 (K.toFinset.max' hne) := by
      intro x hx
      rw [Finset.mem_Icc]
      exact ⟨h1 x (List.mem_toFinset.mp hx), Finset.le_max' _ x hx⟩
    have hsub2 : Finset.Icc 1 (K.toFinset.max' hne) ⊆ K.toFinset := by
      intro x hx
      rw [Finset.mem_Icc] at hx
      rcases Nat.eq_or_lt_of_le hx.2 with rfl | hlt
      · exact hM
      · rw [List.mem_toFinset]
        exact hdc _ (List.mem_toFinset.mp hM) x hx.1 hlt
    have heq := Finset.Subset.antisymm hsub1 hsub2
    have hcard2 : K.toFinset.max' hne = K.length := by
      have hc2 := hcard
      rw [heq, Nat.card_Icc] at hc2
      omega
    rw [heq, hcard2]

theorem conflictsOf_copyGraph (g : CourseGraph) (n : String) :
    conflictsOf (copyGraph g) n = conflictsOf g n := by
  unfold copyGraph
  exact conflictsOf_map_preserve copyCourse_preserves g n

theorem graphNames_copyGraph (g : CourseGraph) :
    graphNames (copyGraph g) = graphNames g := by
  unfold copyGraph
  exact graphNames_map_preserve (fun c => (copyCourse_preserves c).1) g

theorem copyGraph_names (g : CourseGraph) :
    (copyGraph g).map (fun c => c.name) = graphNames g :=
  graphNames_copyGraph g

theorem dsatNames_eq (g : CourseGraph) : dsatNames g = graphNames g :=
  graphNames_copyGraph g

theorem dsaturColoring_courses {g : CourseGraph}
    {s : Option (List Student)} (h : ¬(copyGraph g).length = 0) :
    (dsaturColoring g s).courses =
      (copyGraph g).map (dsaturApply (dsatA g)) := by
  simp only [dsaturColoring, if_neg h]
  rfl

theorem dsaturColoring_slots {g : CourseGraph}
    {s : Option (List Student)} (h : ¬(copyGraph g).length = 0) :
    (dsaturColoring g s).slots = dsatSlots g := by
  simp only [dsaturColoring, if_neg h]
  rfl

theorem dsaturColoring_totalSlots {g : CourseGraph}
    {s : Option (List Student)} (h : ¬(copyGraph g).length = 0) :
    (dsaturColoring g s).totalSlots = (dsatSlots g).length := by
  simp only [dsaturColoring, if_neg h]
  rfl

theorem dsatA_inv (g : CourseGraph) :
    DsatInv (copyGraph g) (dsatNames g) (dsatA g) :=
  dsaturLoop_inv (copyGraph g) (dsatNames g) (dsatNames g).length []
    (dsatInv_nil _ _)

theorem dsatA_complete (g : CourseGraph) :
    ∀ n ∈ dsatNames g, (lookupColor (dsatA g) n).isSome :=
  dsaturLoop_complete (copyGraph g) (dsatNames g) (dsatNames g).length []
    (List.length_filter_le _ _)

theorem dsatSlots_ok (g : CourseGraph) :
    SlotsAccOk (dsatA g) (dsatNames g) (dsatSlots g) :=
  buildDsaturSlots_ok (dsatNames g) (dsatA g)

theorem dsat_distinct_colors {g : CourseGraph} {a b : String} {ca cb : Nat}
    (ha : lookupColor (dsatA g) a = some ca)
    (hb : lookupColor (dsatA g) b = some cb) (hne : a ≠ b)
    (hab : b ∈ conflictsOf g a) (hba : a ∈ conflictsOf g b) : ca ≠ cb := by
  have hma := lookupColor_mem ha
  have hmb := lookupColor_mem hb
  have hpw := (dsatA_inv g).2.2.1
  have hpw2 : (dsatA g).Pairwise (fun p q =>
      (p.1 ∈ conflictsOf (copyGraph g) q.1 → p.2 ≠ q.2) ∨
      (q.1 ∈ conflictsOf (copyGraph g) p.1 → q.2 ≠ p.2)) :=
    hpw.imp (fun h => Or.inl h)
  have hsym : Symmetric (fun p q : String × Nat =>
      (p.1 ∈ conflictsOf (copyGraph g) q.1 → p.2 ≠ q.2) ∨
      (q.1 ∈ conflictsOf (copyGraph g) p.1 → q.2 ≠ p.2)) :=
    fun p q h => h.symm
  have hpairne : (a, ca) ≠ (b, cb) := fun h => hne (congrArg Prod.fst h)
  have hres := hpw2.forall hsym hma hmb hpairne
  rcases hres with h | h
  · exact h (by rw [conflictsOf_copyGraph]; exact hba)
  · exact fun he => (h (by rw [conflictsOf_copyGraph]; exact hab)) he.symm

theorem dsat_member_names {g : CourseGraph} {p : Nat × List String}
    {x : String} (hp : p ∈ dsatSlots g) (hx : x ∈ p.2) :
    x ∈ dsatNames g := by
  have hok := dsatSlots_ok g
  have hflat : x ∈ ((dsatSlots g).map Prod.snd).flatten := by
    rw [List.mem_flatten]
    exact ⟨p.2, List.mem_map_of_mem _ hp, hx⟩
  exact (hok.2.2.1.mem_iff).mp hflat

theorem dsatur_verify_true {g : CourseGraph}
    (hnd : (graphNames g).Nodup) (hs : GraphSymm g)
    (s : Option (List Student)) :
    verifySolution (dsaturColoring g s).courses
      (dsaturColoring g s).slots = true := by
  by_cases hg : (copyGraph g).length = 0
  · simp only [dsaturColoring, if_pos hg]
    rfl
  · rw [dsaturColoring_courses hg, dsaturColoring_slots hg]
    rw [verifySolution, List.all_eq_true]
    intro p hp
    have hcongr : ∀ n, conflictsOf ((copyGraph g).map
        (dsaturApply (dsatA g))) n = conflictsOf g n := by
      intro n
      rw [conflictsOf_map_preserve (dsaturApply_preserves _),
        conflictsOf_copyGraph]
    rw [slotValid_congr hcongr]
    have hok := dsatSlots_ok g
    have hndm : p.2.Nodup := by
      have hfnd : ((dsatSlots g).map Prod.snd).flatten.Nodup := by
        rw [(hok.2.2.1.nodup_iff)]
        rw [dsatNames_eq]
        exact hnd
      have hsub : p.2.Sublist ((dsatSlots g).map Prod.snd).flatten :=
        List.sublist_flatten_of_mem (List.mem_map_of_mem _ hp)
      exact hfnd.sublist hsub
    refine slotValid_of_pairwise ?_
    refine List.Pairwise.imp_of_mem ?_ hndm
    intro a b ha hb hne
    have hak : (lookupColor (dsatA g) a).getD 1 = p.1 := hok.2.1 p hp a ha
    have hbk : (lookupColor (dsatA g) b).getD 1 = p.1 := hok.2.1 p hp b hb
    have hanames : a ∈ dsatNames g := dsat_member_names hp ha
    have hbnames : b ∈ dsatNames g := dsat_member_names hp hb
    rcases Option.isSome_iff_exists.mp (dsatA_complete g a hanames)
      with ⟨ca, hca⟩
    rcases Option.isSome_iff_exists.mp (dsatA_complete g b hbnames)
      with ⟨cb, hcb⟩
    rw [hca] at hak
    rw [hcb] at hbk
    simp only [Option.getD_some] at hak hbk
    have hcolor : ca = cb := by rw [hak, hbk]
    have hagn : a ∈ graphNames g := by rw [← dsatNames_eq g]; exact hanames
    have hbgn : b ∈ graphNames g := by rw [← dsatNames_eq g]; exact hbnames
    constructor
    · intro hmem
      have hmem2 : a ∈ conflictsOf g b := (hs a hagn b hbgn).mp hmem
      exact dsat_distinct_colors hca hcb hne hmem hmem2 hcolor
    · intro hmem
      have hmem2 : b ∈ conflictsOf g a := (hs b hbgn a hagn).mp hmem
      exact dsat_distinct_colors hca hcb hne hmem2 hmem hcolor

/-- C1 (claim theorem): for every course map (with the distinct keys a
JavaScript `Map` guarantees) satisfying the symmetry invariant, the
colorings produced by `greedyColoring` and by `dsaturColoring` are valid:
`verifySolution` returns true on each result's courses and slots, so no two
courses sharing a slot conflict in either direction. -/
theorem coloring_valid (g : CourseGraph) (s : Option (List Student))
    (hnd : (graphNames g).Nodup) (hs : GraphSymm g) :
    verifySolution (greedyColoring g s).courses
        (greedyColoring g s).slots = true ∧
      verifySolution (dsaturColoring g s).courses
        (dsaturColoring g s).slots = true :=
  ⟨greedy_verify_true hnd hs s, dsatur_verify_true hnd hs s⟩

/-- C1 (witness): validity of both colorings on the worked scenario. -/
theorem coloring_valid_witness :
    verifySolution (greedyColoring demoGraph (some demoStudents)).courses
        (greedyColoring demoGraph (some demoStudents)).slots = true ∧
      verifySolution (dsaturColoring demoGraph (some demoStudents)).courses
        (dsaturColoring demoGraph (some demoStudents)).slots = true :=
  coloring_valid demoGraph (some demoStudents) (by decide) (by decide)

theorem dsatur_clique_le {g : CourseGraph} (hnd : (graphNames g).Nodup)
    (s : Option (List Student)) (K : Finset String)
    (hKmem : ∀ a ∈ K, a ∈ graphNames g)
    (hKcl : ∀ a ∈ K, ∀ b ∈ K, a ≠ b → b ∈ conflictsOf g a) :
    K.card ≤ (dsaturColoring g s).totalSlots := by
  by_cases hg : (copyGraph g).length = 0
  · have hnil : g = [] := by
      rcases g with _ | ⟨c, g⟩
      · rfl
      · exact absurd hg (by simp [copyGraph])
    subst hnil
    have hK : K = ∅ := by
      refine Finset.eq_empty_of_forall_not_mem (fun a ha => ?_)
      have := hKmem a ha
      simp [graphNames] at this
    rw [hK]
    simp
  · rw [dsaturColoring_totalSlots hg]
    have hok := dsatSlots_ok g
    have hkeylen : ((dsatSlots g).map Prod.fst).length =
        (dsatSlots g).length := List.length_map _ _
    have hcard : ((dsatSlots g).map Prod.fst).toFinset.card =
        (dsatSlots g).length := by
      rw [List.toFinset_card_of_nodup hok.1, hkeylen]
    refine le_trans (Finset.card_le_card_of_injOn
      (fun n => (lookupColor (dsatA g) n).getD 1) ?_ ?_) (le_of_eq hcard)
    · intro a ha
      rw [List.mem_toFinset, hok.2.2.2]
      refine ⟨a, ?_, rfl⟩
      rw [dsatNames_eq]
      exact hKmem a ha
    · intro a ha b hb hf
      by_contra hne
      have ha2 : a ∈ K := ha
      have hb2 : b ∈ K := hb
      have hanames : a ∈ dsatNames g := by
        rw [dsatNames_eq]
        exact hKmem a ha2
      have hbnames : b ∈ dsatNames g := by
        rw [dsatNames_eq]
        exact hKmem b hb2
      rcases Option.isSome_iff_exists.mp (dsatA_complete g a hanames)
        with ⟨ca, hca⟩
      rcases Option.isSome_iff_exists.mp (dsatA_complete g b hbnames)
        with ⟨cb, hcb⟩
      have hf2 : (lookupColor (dsatA g) a).getD 1 =
          (lookupColor (dsatA g) b).getD 1 := hf
      rw [hca, hcb] at hf2
      simp only [Option.getD_some] at hf2
      exact dsat_distinct_colors hca hcb hne (hKcl a ha2 b hb2 hne)
        (hKcl b hb2 a ha2 (Ne.symm hne)) hf2

/-- C8 (claim theorem): for every course map with the symmetry and
no-self-conflict invariants, `totalSlots` of either colorer's result is at
least the size of any set of pairwise-conflicting courses (clique). -/
theorem totalSlots_clique_bound (g : CourseGraph)
    (s : Option (List Student)) (K : Finset String)
    (hnd : (graphNames g).Nodup) (hs : GraphSymm g)
    (_hns : NoSelfConflict g)
    (hKmem : ∀ a ∈ K, a ∈ graphNames g)
    (hKcl : ∀ a ∈ K, ∀ b ∈ K, a ≠ b → b ∈ conflictsOf g a) :
    K.card ≤ (greedyColoring g s).totalSlots ∧
      K.card ≤ (dsaturColoring g s).totalSlots :=
  ⟨greedy_clique_le hnd hs s K hKmem hKcl,
    dsatur_clique_le hnd s K hKmem hKcl⟩

/-- C8 (witness): three pairwise-conflicting courses (the triangle `gTri`)
force at least 3 slots under both colorers. -/
theorem totalSlots_clique_bound_witness :
    (3 : Nat) ≤ (greedyColoring gTri none).totalSlots ∧
      (3 : Nat) ≤ (dsaturColoring gTri none).totalSlots := by
  have h := totalSlots_clique_bound gTri none {"A", "B", "C"}
    (by decide) (by decide) (by decide) (by decide) (by decide)
  have hcard : ({"A", "B", "C"} : Finset String).card = 3 := by decide
  rw [hcard] at h
  exact h

theorem dsat_key_ge_one {g : CourseGraph} {k : Nat}
    (hk : k ∈ (dsatSlots g).map Prod.fst) : 1 ≤ k := by
  rcases ((dsatSlots_ok g).2.2.2 k).mp hk with ⟨n, hn, hkey⟩
  cases hlook : lookupColor (dsatA g) n with
  | none =>
    rw [hlook] at hkey
    simp at hkey
    omega
  | some c =>
    rw [hlook] at hkey
    simp only [Option.getD_some] at hkey
    have hc := ((dsatA_inv g).2.2.2 (n, c) (lookupColor_mem hlook)).1
    omega

theorem dsatur_partition {g : CourseGraph} (hnd : (graphNames g).Nodup)
    (s : Option (List Student)) :
    SlotsPartitionOk (dsaturColoring g s) := by
  by_cases hg : (copyGraph g).length = 0
  · have hnil : g = [] := by
      rcases g with _ | ⟨c, g⟩
      · rfl
      · exact absurd hg (by simp [copyGraph])
    subst hnil
    refine ⟨?_, ?_, ?_⟩
    · simp [dsaturColoring, copyGraph]
    · simp [dsaturColoring, copyGraph]
    · intro c hc
      simp [dsaturColoring, copyGraph] at hc
  · have hok := dsatSlots_ok g
    have hnames : (dsatNames g).Nodup := by
      rw [dsatNames_eq]
      exact hnd
    refine ⟨?_, ?_, ?_⟩
    · rw [dsaturColoring_slots hg]
      exact hok.1
    · rw [dsaturColoring_slots hg, dsaturColoring_totalSlots hg]
      have hcont := keys_contiguous hok.1
        (fun k hk => dsat_key_ge_one hk) ?_
      · rw [hcont, List.length_map]
      · intro c hc k hk1 hk2
        rcases (hok.2.2.2 c).mp hc with ⟨n, hn, hkey⟩
        rcases Option.isSome_iff_exists.mp (dsatA_complete g n hn)
          with ⟨cn, hcn⟩
        rw [hcn] at hkey
        simp only [Option.getD_some] at hkey
        subst hkey
        rcases ((dsatA_inv g).2.2.2 (n, cn)
          (lookupColor_mem hcn)).2 k hk1 hk2 with ⟨u, hu⟩
        have hun : u ∈ dsatNames g := (dsatA_inv g).2.1 (u, k) hu
        have hulook : lookupColor (dsatA g) u = some k :=
          lookupColor_of_mem_nodup (dsatA_inv g).1 hu
        rw [hok.2.2.2]
        refine ⟨u, hun, ?_⟩
        rw [hulook]
        rfl
    · intro c hc
      rw [dsaturColoring_courses hg] at hc
      rcases List.mem_map.mp hc with ⟨c0, hc0, rfl⟩
      have hc0names : c0.name ∈ dsatNames g :=
        List.mem_map_of_mem _ hc0
      constructor
      · rw [dsaturColoring_slots hg]
        have hcount : ((dsatSlots g).map Prod.snd).flatten.count
            (dsaturApply (dsatA g) c0).name =
            ((dsatSlots g).map Prod.snd).flatten.count c0.name := rfl
        rw [hcount, (hok.2.2.1).count_eq]
        exact List.count_eq_one_of_mem hnames hc0names
      · rw [dsaturColoring_slots hg]
        have hflat : c0.name ∈ ((dsatSlots g).map Prod.snd).flatten :=
          (hok.2.2.1.mem_iff).mpr hc0names
        rw [List.mem_flatten] at hflat
        rcases hflat with ⟨m, hm, hnm⟩
        rcases List.mem_map.mp hm with ⟨q, hq, rfl⟩
        refine ⟨q.1, q.2, by
          rcases q with ⟨qk, qm⟩
          exact hq, hnm, ?_⟩
        have hkey : (lookupColor (dsatA g) c0.name).getD 1 = q.1 :=
          hok.2.1 q hq c0.name hnm
        show some ((lookupColor (dsatA g) c0.name).getD 1) = some q.1
        rw [hkey]

/-- C10 (claim theorem): for every course map (distinct keys), the slot
numbers used in either colorer's result are exactly the contiguous range
`1..totalSlots`, and every course of the result appears in exactly one
slot's membership list, with its `slot` field naming that slot. -/
theorem slots_partition (g : CourseGraph) (s : Option (List Student))
    (hnd : (graphNames g).Nodup) :
    SlotsPartitionOk (greedyColoring g s) ∧
      SlotsPartitionOk (dsaturColoring g s) :=
  ⟨greedy_partition hnd s, dsatur_partition hnd s⟩

/-- C10 (witness): the partition property on the worked scenario. -/
theorem slots_partition_witness :
    SlotsPartitionOk (greedyColoring demoGraph (some demoStudents)) ∧
      SlotsPartitionOk (dsaturColoring demoGraph (some demoStudents)) :=
  slots_partition demoGraph (some demoStudents) (by decide)

/-! ## Claim C5: DSATUR non-mutation -/

theorem map_pair_preserve {f : Course → Course}
    (hf : ∀ c, (f c).name = c.name ∧ (f c).conflicts = c.conflicts)
    (g : CourseGraph) :
    (g.map f).map (fun c => (c.name, c.conflicts)) =
      g.map (fun c => (c.name, c.conflicts)) := by
  rw [List.map_map]
  refine List.map_congr_left ?_
  intro c _
  show ((f c).name, (f c).conflicts) = (c.name, c.conflicts)
  rw [(hf c).1, (hf c).2]

theorem copyGraph_eq_of_pairs {g g2 : CourseGraph}
    (h : g2.map (fun c => (c.name, c.conflicts)) =
      g.map (fun c => (c.name, c.conflicts))) :
    copyGraph g2 = copyGraph g := by
  have hrepr : ∀ G : CourseGraph, copyGraph G =
      (G.map (fun c => (c.name, c.conflicts))).map
        (fun p => ({ name := p.1, conflicts := p.2 } : Course)) := by
    intro G
    rw [List.map_map]
    rfl
  rw [hrepr, hrepr, h]

/-- C5 (claim theorem): `dsaturColoring` does not touch the caller's graph.
In the pure embedding this is captured by (i) the result's courses are a
copy agreeing with the input on every name and conflict set (in order), with
only the freshly computed `slot`/`color` fields differing, and (ii) the
whole result is a function of the input's names and conflict sets alone —
any two inputs agreeing on those (whatever stale `slot`/`color` data the
caller's records carry) produce the same `ScheduleResult`.  The source
realises this by deep-copying the map before coloring and never writing to
`originalCourses`. -/
theorem dsatur_nonmutation (g : CourseGraph) (s : Option (List Student)) :
    ((dsaturColoring g s).courses.map (fun c => (c.name, c.conflicts)) =
      g.map (fun c => (c.name, c.conflicts))) ∧
    ∀ g2, g2.map (fun c => (c.name, c.conflicts)) =
        g.map (fun c => (c.name, c.conflicts)) →
      dsaturColoring g2 s = dsaturColoring g s := by
  constructor
  · by_cases hg : (copyGraph g).length = 0
    · show ((dsaturColoring g s).courses.map
        (fun c => (c.name, c.conflicts))) = _
      simp only [dsaturColoring, if_pos hg]
      show ((copyGraph g).map (fun c => (c.name, c.conflicts))) = _
      rw [copyGraph, map_pair_preserve copyCourse_preserves]
    · rw [dsaturColoring_courses hg,
        map_pair_preserve (dsaturApply_preserves _), copyGraph,
        map_pair_preserve copyCourse_preserves]
  · intro g2 h
    have hcopy := copyGraph_eq_of_pairs h
    unfold dsaturColoring
    rw [hcopy]

/-- C5 (witness): the non-mutation theorem applied to the triangle carrying
stale `slot`/`color` data, compared against the clean triangle: the pair
projections agree, and the two DSATUR results coincide. -/
theorem dsatur_nonmutation_witness :
    ((dsaturColoring gTriStale none).courses.map
        (fun c => (c.name, c.conflicts)) =
      gTriStale.map (fun c => (c.name, c.conflicts))) ∧
      dsaturColoring gTri none = dsaturColoring gTriStale none :=
  ⟨(dsatur_nonmutation gTriStale none).1,
    (dsatur_nonmutation gTriStale none).2 gTri (by decide)⟩

/-! ## Claim C6: greedy determinism -/

theorem courseBefore_congr {a a2 b b2 : Course} (ha : CourseEqv a a2)
    (hb : CourseEqv b b2) : courseBefore a b = courseBefore a2 b2 := by
  unfold courseBefore
  rw [ha.1, hb.1, ha.2.length_eq, hb.2.length_eq]

theorem insertLe_congr {a a2 : Course} (ha : CourseEqv a a2) :
    ∀ {l l2 : List Course}, List.Forall₂ CourseEqv l l2 →
      List.Forall₂ CourseEqv (insertLe courseBefore a l)
        (insertLe courseBefore a2 l2) := by
  intro l l2 h
  induction h with
  | nil => exact List.Forall₂.cons ha List.Forall₂.nil
  | @cons b b2 t t2 hbb ht ih =>
    rw [insertLe, insertLe, courseBefore_congr ha hbb]
    by_cases hc : courseBefore a2 b2
    · rw [if_pos hc, if_pos hc]
      exact List.Forall₂.cons ha (List.Forall₂.cons hbb ht)
    · rw [if_neg hc, if_neg hc]
      exact List.Forall₂.cons hbb ih

theorem sortCourses_congr {l l2 : List Course}
    (h : List.Forall₂ CourseEqv l l2) :
    List.Forall₂ CourseEqv (sortCourses l) (sortCourses l2) := by
  unfold sortCourses sortByLe
  induction h with
  | nil => exact List.Forall₂.nil
  | cons hbb t ih =>
    rw [List.foldr_cons, List.foldr_cons]
    exact insertLe_congr hbb ih

theorem contains_congr {l l2 : List String} (h : l.Perm l2) (x : String) :
    l.contains x = l2.contains x := by
  simp only [List.contains, List.elem_eq_mem]
  by_cases hx : x ∈ l
  · rw [decide_eq_true hx, decide_eq_true (h.mem_iff.mp hx)]
  · rw [decide_eq_false hx, decide_eq_false (fun h2 => hx (h.mem_iff.mpr h2))]

theorem slotOk_congr {c c2 : Course} (h : CourseEqv c c2)
    (m : List String) : slotOk c m = slotOk c2 m := by
  unfold slotOk
  induction m with
  | nil => rfl
  | cons x xs ih =>
    rw [List.all_cons, List.all_cons, contains_congr h.2, ih]

theorem placeCourse_congr {c c2 : Course} (h : CourseEqv c c2) :
    ∀ ss, placeCourse c ss = placeCourse c2 ss := by
  intro ss
  induction ss with
  | nil =>
    rw [placeCourse, placeCourse, h.1]
  | cons m rest ih =>
    rw [placeCourse, placeCourse, slotOk_congr h]
    by_cases hc : slotOk c2 m
    · rw [if_pos hc, if_pos hc, h.1]
    · rw [if_neg hc, if_neg hc, ih]

theorem assignSlots_congr {l l2 : List Course}
    (h : List.Forall₂ CourseEqv l l2) : assignSlots l = assignSlots l2 := by
  unfold assignSlots
  suffices hgen : ∀ ss, l.foldl (fun ss c => placeCourse c ss) ss =
      l2.foldl (fun ss c => placeCourse c ss) ss from hgen []
  induction h with
  | nil => intro ss; rfl
  | cons hbb t ih =>
    intro ss
    rw [List.foldl_cons, List.foldl_cons, placeCourse_congr hbb]
    exact ih _

theorem map_reset_congr {g g2 : CourseGraph}
    (h : List.Forall₂ CourseEqv g g2) :
    List.Forall₂ CourseEqv (g.map resetCourse) (g2.map resetCourse) := by
  induction h with
  | nil => exact List.Forall₂.nil
  | cons hbb t ih =>
    exact List.Forall₂.cons hbb ih

theorem forall₂_mem_left {R : α → β → Prop} :
    ∀ {l : List α} {l2 : List β}, List.Forall₂ R l l2 → ∀ {a}, a ∈ l →
      ∃ b ∈ l2, R a b := by
  intro l l2 h
  induction h with
  | nil => intro a ha; cases ha
  | cons hbb t ih =>
    intro a ha
    rcases List.mem_cons.mp ha with rfl | ha
    · exact ⟨_, List.mem_cons_self _ _, hbb⟩
    · rcases ih ha with ⟨b, hb, hr⟩
      exact ⟨b, List.mem_cons_of_mem _ hb, hr⟩

theorem forall₂_mem_right {R : α → β → Prop} :
    ∀ {l : List α} {l2 : List β}, List.Forall₂ R l l2 → ∀ {b}, b ∈ l2 →
      ∃ a ∈ l, R a b := by
  intro l l2 h
  induction h with
  | nil => intro b hb; cases hb
  | cons hbb t ih =>
    intro b hb
    rcases List.mem_cons.mp hb with rfl | hb
    · exact ⟨_, List.mem_cons_self _ _, hbb⟩
    · rcases ih hb with ⟨a, ha, hr⟩
      exact ⟨a, List.mem_cons_of_mem _ ha, hr⟩

theorem conflictPairList_length_congr {l l2 : List Course}
    (h : List.Forall₂ CourseEqv l l2) :
    (conflictPairList l).length = (conflictPairList l2).length := by
  rw [conflictPairList_length, conflictPairList_length]
  have hset : uPairs l = uPairs l2 := by
    unfold uPairs
    ext p
    rw [List.mem_toFinset, List.mem_toFinset, List.mem_flatMap,
      List.mem_flatMap]
    constructor
    · rintro ⟨c, hc, hp⟩
      rcases forall₂_mem_left h hc with ⟨c2, hc2, hr⟩
      refine ⟨c2, hc2, ?_⟩
      rcases List.mem_map.mp hp with ⟨b, hb, rfl⟩
      rw [hr.1]
      exact List.mem_map_of_mem _ (hr.2.mem_iff.mp hb)
    · rintro ⟨c2, hc2, hp⟩
      rcases forall₂_mem_right h hc2 with ⟨c, hc, hr⟩
      refine ⟨c, hc, ?_⟩
      rcases List.mem_map.mp hp with ⟨b, hb, rfl⟩
      rw [← hr.1]
      exact List.mem_map_of_mem _ (hr.2.mem_iff.mpr hb)
  rw [hset]

theorem applySlots_fields {ss : List (List String)} {d d2 : Course}
    (hname : d.name = d2.name) (hslot : d.slot = d2.slot)
    (hcolor : d.color = d2.color) :
    (applySlots ss d).slot = (applySlots ss d2).slot ∧
      (applySlots ss d).color = (applySlots ss d2).color := by
  unfold applySlots
  rw [hname]
  cases slotOfName ss d2.name with
  | some s => exact ⟨rfl, rfl⟩
  | none => exact ⟨hslot, hcolor⟩

/-- C6 (claim theorem): `greedyColoring` is deterministic.  Two runs on
structurally identical inputs — same course sequence, same conflict sets
(set membership, irrespective of the sets' insertion order or of stale
`slot`/`color` data), same students — produce identical slot membership
lists, identical slot counts and conflict counts, and identical `slot` and
`color` values on every course. -/
theorem greedy_deterministic (g g2 : CourseGraph)
    (s : Option (List Student)) (h : List.Forall₂ CourseEqv g g2) :
    (greedyColoring g s).slots = (greedyColoring g2 s).slots ∧
    (greedyColoring g s).totalSlots = (greedyColoring g2 s).totalSlots ∧
    (greedyColoring g s).totalConflicts =
      (greedyColoring g2 s).totalConflicts ∧
    ∀ c ∈ (greedyColoring g s).courses,
      ∀ c2 ∈ (greedyColoring g2 s).courses,
      c.name = c2.name → c.slot = c2.slot ∧ c.color = c2.color := by
  by_cases hg : g.isEmpty
  · have hnil : g = [] := List.isEmpty_iff.mp hg
    subst hnil
    have hnil2 : g2 = [] := by
      cases h
      rfl
    subst hnil2
    refine ⟨rfl, rfl, rfl, ?_⟩
    intro c hc
    simp [greedyColoring] at hc
  · have hg2 : ¬g2.isEmpty := by
      intro h2
      have hnil2 : g2 = [] := List.isEmpty_iff.mp h2
      subst hnil2
      cases h
      exact hg (by rfl)
    have hsorted := sortCourses_congr (map_reset_congr h)
    have hss := assignSlots_congr hsorted
    refine ⟨?_, ?_, ?_, ?_⟩
    · simp only [greedyColoring, if_neg hg, if_neg hg2]
      rw [hss]
    · simp only [greedyColoring, if_neg hg, if_neg hg2]
      rw [hss]
    · simp only [greedyColoring, if_neg hg, if_neg hg2]
      exact conflictPairList_length_congr hsorted
    · intro c hc c2 hc2 hname
      rcases greedy_courses_elem hg hc with ⟨c0, hc0, rfl⟩
      rcases greedy_courses_elem hg2 hc2 with ⟨c02, hc02, rfl⟩
      rw [hss]
      rw [hss] at hname
      have e1 := (applySlots_preserves
        (assignSlots (sortCourses (g2.map resetCourse)))
        (resetCourse c0)).1
      have e2 := (applySlots_preserves
        (assignSlots (sortCourses (g2.map resetCourse)))
        (resetCourse c02)).1
      rw [e1, e2] at hname
      exact applySlots_fields hname rfl rfl

/-- C6 (witness): determinism on the triangle: one copy carries stale
`slot`/`color` data, the other lists every conflict set in reversed
insertion order; the greedy results agree. -/
theorem greedy_deterministic_witness :
    (greedyColoring gTriStale none).slots =
        (greedyColoring gTriRev none).slots ∧
      (greedyColoring gTriStale none).totalSlots =
        (greedyColoring gTriRev none).totalSlots := by
  have hf : List.Forall₂ CourseEqv gTriStale gTriRev := by
    refine List.Forall₂.cons ⟨rfl, ?_⟩ (List.Forall₂.cons ⟨rfl, ?_⟩
      (List.Forall₂.cons ⟨rfl, ?_⟩ List.Forall₂.nil)) <;> decide
  have h := greedy_deterministic gTriStale gTriRev none hf
  exact ⟨h.1, h.2.1⟩
